import Mathlib

/-!
Verification of the Infinite Jazz streaming runtime (browser edition).

This file gives a shallow embedding, in Lean 4, of the core components of the
repository: the runtime configuration, the SMF encoder's tick placement and
instrument-track construction (src/midi.ts), the timeline scheduler and the
soundfont section coordinator (src/playback.ts), the incremental tracker
stream parser (src/trackerParser.ts), and the rolling context buffer
(src/trackerContext.ts).  JavaScript strings are modelled as `List Char`,
JS numbers carrying times/ratios as `ℚ`, ticks as `ℤ`, and counters as `ℕ`.
`Math.round` is modelled by Mathlib's `round` (both round halves up),
`Math.floor` on naturals by `Nat` division.  Theorems at the end of the file
settle the specification claims against these definitions.
-/

namespace InfiniteJazz

/-! ## Configuration (config.ts) -/

inductive InstrumentName
  | BASS | DRUMS | PIANO | SAX
deriving DecidableEq, Repr

open InstrumentName

def TRACKER_INSTRUMENTS : List InstrumentName := [BASS, DRUMS, PIANO, SAX]

structure RuntimeConfig where
  tempo : ℚ
  swingEnabled : Bool
  swingRatio : ℚ
  ticksPerBeat : ℕ
  barsPerGeneration : ℕ
  timeSignatureNum : ℕ
  timeSignatureDen : ℕ
  channels : InstrumentName → ℕ
  gmPrograms : InstrumentName → ℕ

def DEFAULT_CONFIG : RuntimeConfig where
  tempo := 120
  swingEnabled := true
  swingRatio := 67/100
  ticksPerBeat := 480
  barsPerGeneration := 2
  timeSignatureNum := 4
  timeSignatureDen := 4
  channels := fun i => match i with | BASS => 0 | DRUMS => 9 | PIANO => 1 | SAX => 2
  gmPrograms := fun i => match i with | BASS => 32 | PIANO => 0 | SAX => 65 | DRUMS => 0

def stepsPerBar (config : RuntimeConfig) : ℕ :=
  config.timeSignatureNum * 4

def totalSteps (config : RuntimeConfig) : ℕ :=
  stepsPerBar config * config.barsPerGeneration

def ticksPerStep (config : RuntimeConfig) : ℕ :=
  config.ticksPerBeat / 4

/-! ## SMF tick placement (midi.ts, `stepTick`) -/

def stepTick (config : RuntimeConfig) (stepIndex : ℕ) : ℤ :=
  let tps := ticksPerStep config
  let pairTicks := tps * 2
  if stepIndex ≥ totalSteps config then (stepIndex * tps : ℕ)
  else
    let pairIndex := stepIndex / 2
    let base := pairIndex * pairTicks
    let isOffbeat : Bool := stepIndex % 2 == 1
    if !config.swingEnabled || !isOffbeat then (base : ℤ)
    else (base : ℤ) + round ((pairTicks : ℚ) * config.swingRatio)

/-- The default configuration with swing turned off. -/
def noSwingConfig : RuntimeConfig :=
  { DEFAULT_CONFIG with swingEnabled := false }

/-! ## Timeline scheduler (playback.ts, `TimelineScheduler`)

The scheduler keeps a list of events sorted by an epsilon-banded comparator
and, on `flush`, drains every event whose time is within `EPSILON` of the
current clock reading.  JS `Array.prototype.sort` is required to be stable;
it is modelled here by a stable insertion sort with the source's comparator.
Callbacks are modelled by their observable effect on the flush: whether the
callback with a given insertion id throws. -/

def EPSILON : ℚ := 1/10000

def SECTION_LOOKAHEAD : ℚ := 1/4

def INITIAL_LOOKAHEAD : ℚ := 2/5

def SECTION_BUFFER : ℕ := 4

structure InternalScheduledEvent where
  time : ℚ
  priority : ℤ
  id : ℕ
  cancelled : Bool
deriving DecidableEq, Repr

/-- The comparator passed to `this.events.sort` in `TimelineScheduler.schedule`. -/
def cmpEvents (a b : InternalScheduledEvent) : ℚ :=
  if |a.time - b.time| > EPSILON then a.time - b.time
  else if a.priority ≠ b.priority then ((a.priority - b.priority : ℤ) : ℚ)
  else ((a.id : ℤ) - (b.id : ℤ) : ℤ)

/-- Stable insertion of an event into a list sorted by `cmpEvents`. -/
def insertEvent (e : InternalScheduledEvent) :
    List InternalScheduledEvent → List InternalScheduledEvent
  | [] => [e]
  | h :: t => if cmpEvents e h ≤ 0 then e :: h :: t else h :: insertEvent e t

/-- Stable sort by `cmpEvents` (models `this.events.sort(comparator)`). -/
def sortEvents : List InternalScheduledEvent → List InternalScheduledEvent
  | [] => []
  | h :: t => insertEvent h (sortEvents t)

structure SchedulerState where
  events : List InternalScheduledEvent
  counter : ℕ
deriving DecidableEq, Repr

def initScheduler : SchedulerState := ⟨[], 0⟩

/-- `TimelineScheduler.schedule`: append the new event and re-sort. -/
def schedule (s : SchedulerState) (time : ℚ) (priority : ℤ) : SchedulerState :=
  let event : InternalScheduledEvent :=
    { time := time, priority := priority, id := s.counter, cancelled := false }
  { events := sortEvents (s.events ++ [event]), counter := s.counter + 1 }

/-- The `cancel` closure returned by `schedule`: mark the event dead. -/
def cancelEvent (s : SchedulerState) (id : ℕ) : SchedulerState :=
  { s with events :=
      s.events.map fun e => if e.id = id then { e with cancelled := true } else e }

inductive SchedOp
  | sched (time : ℚ) (priority : ℤ)
  | cancel (id : ℕ)

def applyOp (s : SchedulerState) : SchedOp → SchedulerState
  | .sched t p => schedule s t p
  | .cancel i => cancelEvent s i

def runOps (ops : List SchedOp) : SchedulerState :=
  ops.foldl applyOp initScheduler

/-- `TimelineScheduler.flush` without exceptions: drain every head event with
`time - now ≤ EPSILON`; a cancelled event is shifted out but its callback is
skipped.  Returns (events whose callbacks ran, events left in the queue). -/
def flushDrain (now : ℚ) : List InternalScheduledEvent →
    List InternalScheduledEvent × List InternalScheduledEvent
  | [] => ([], [])
  | e :: rest =>
    if e.time - now > EPSILON then ([], e :: rest)
    else
      let r := flushDrain now rest
      (if e.cancelled then r.1 else e :: r.1, r.2)

structure FlushResult where
  executed : List InternalScheduledEvent
  remaining : List InternalScheduledEvent
  thrown : Option ℕ
deriving DecidableEq, Repr

/-- `TimelineScheduler.flush` where the callback of the event with insertion
id `i` throws exactly when `throws i`.  The loop body `event.callback()` has
no surrounding try/catch, so a throw aborts the while loop: the event has
already been shifted, the rest of the queue is left in place, and the
exception leaves `flush` (recorded in `thrown`). -/
def flushWith (throws : ℕ → Bool) (now : ℚ) :
    List InternalScheduledEvent → FlushResult
  | [] => ⟨[], [], none⟩
  | e :: rest =>
    if e.time - now > EPSILON then ⟨[], e :: rest, none⟩
    else if e.cancelled then flushWith throws now rest
    else if throws e.id then ⟨[], rest, some e.id⟩
    else
      let r := flushWith throws now rest
      ⟨e :: r.executed, r.remaining, r.thrown⟩

/-- What the missing try/catch means for one flush: the first throwing due
callback aborts the drain, the exception propagates, and every event after
the thrower stays in the queue unexecuted. -/
def ThrowAborts (throws : ℕ → Bool) (now : ℚ)
    (evs : List InternalScheduledEvent) (i : ℕ) : Prop :=
  ∃ pre e post, evs = pre ++ e :: post ∧ e.id = i ∧ e.cancelled = false ∧
    throws e.id = true ∧ e.time - now ≤ EPSILON ∧
    (flushWith throws now evs).remaining = post ∧
    (flushWith throws now evs).executed = pre.filter (fun x => !x.cancelled)

/-! ## SMF instrument tracks (midi.ts, `buildInstrumentTrack`)

The byte-level track chunk is modelled at the level of its MIDI events:
each emitted event is a delta tick (the `encodeVLQ(delta)` argument, a
natural number because `addEvent` clamps with `Math.max(0, …)`) together
with the event's kind.  `addEvent` for the first element of each group and
`addZeroDelta` for the rest are modelled by `emitGroup`. -/

structure NoteEvent where
  pitch : ℕ
  velocity : ℕ
deriving DecidableEq, Repr

structure TrackerStep where
  notes : List NoteEvent
  isRest : Bool
  isTie : Bool
deriving DecidableEq, Repr

structure ParsedTrack where
  instrument : InstrumentName
  steps : List TrackerStep
deriving DecidableEq, Repr

inductive MidiEvtKind
  | trackName
  | programChange (channel program : ℕ)
  | noteOn (channel pitch velocity : ℕ)
  | noteOff (channel pitch : ℕ)
  | endOfTrack
deriving DecidableEq, Repr

structure MidiEvt where
  delta : ℕ
  kind : MidiEvtKind
deriving DecidableEq, Repr

/-- `Math.max(1, Math.min(127, velocity))` on a note-on. -/
def clampVel (v : ℕ) : ℕ := max 1 (min 127 v)

/-- Emit a group of events at one tick: the first through `addEvent`
(`delta = max(0, tick - lastTick)`, `lastTick := tick`), the rest through
`addZeroDelta`.  An empty group leaves `lastTick` unchanged, like the
corresponding skipped loop in the source. -/
def emitGroup (lastTick tick : ℤ) (ks : List MidiEvtKind) :
    List MidiEvt × ℤ :=
  match ks with
  | [] => ([], lastTick)
  | k :: rest => (⟨(tick - lastTick).toNat, k⟩ :: rest.map (fun k' => ⟨0, k'⟩), tick)

/-- `activeNotes.set(pitch, true)` on a JS Map: a fresh pitch is appended in
iteration order, an existing pitch keeps its position. -/
def addActive (pitch : ℕ) (active : List ℕ) : List ℕ :=
  if pitch ∈ active then active else active ++ [pitch]

/-- The main `for (let idx = 0 …)` loop of `buildInstrumentTrack`: returns
the emitted events, the final `lastTick`, and the final `activeNotes`
iteration order. -/
def buildStepsEvents (config : RuntimeConfig) (instrumentName : InstrumentName)
    (channel : ℕ) :
    List TrackerStep → ℕ → ℤ → List ℕ → List MidiEvt × ℤ × List ℕ
  | [], _, lastTick, active => ([], lastTick, active)
  | step :: rest, idx, lastTick, active =>
    let tick := stepTick config idx
    if instrumentName = DRUMS then
      if step.isRest || step.isTie || step.notes.length == 0 then
        buildStepsEvents config instrumentName channel rest (idx + 1) lastTick active
      else
        let onKinds := step.notes.map
          (fun n => MidiEvtKind.noteOn channel n.pitch (clampVel n.velocity))
        let onPair := emitGroup lastTick tick onKinds
        let offTick := tick + max 12 (round ((ticksPerStep config : ℚ) / 2))
        let offKinds := step.notes.map (fun n => MidiEvtKind.noteOff channel n.pitch)
        let offPair := emitGroup onPair.2 offTick offKinds
        let r := buildStepsEvents config instrumentName channel rest (idx + 1) offPair.2 active
        (onPair.1 ++ offPair.1 ++ r.1, r.2.1, r.2.2)
    else
      if step.isTie then
        buildStepsEvents config instrumentName channel rest (idx + 1) lastTick active
      else
        let offKinds := active.map (fun p => MidiEvtKind.noteOff channel p)
        let offPair := emitGroup lastTick tick offKinds
        if step.isRest || step.notes.length == 0 then
          let r := buildStepsEvents config instrumentName channel rest (idx + 1) offPair.2 []
          (offPair.1 ++ r.1, r.2.1, r.2.2)
        else
          let onKinds := step.notes.map
            (fun n => MidiEvtKind.noteOn channel n.pitch (clampVel n.velocity))
          let onPair := emitGroup offPair.2 tick onKinds
          let newActive := step.notes.foldl (fun acc n => addActive n.pitch acc) []
          let r := buildStepsEvents config instrumentName channel rest (idx + 1) onPair.2 newActive
          (offPair.1 ++ onPair.1 ++ r.1, r.2.1, r.2.2)

/-- `buildInstrumentTrack` as the list of its MIDI events: track name meta,
program change for non-DRUMS, the per-step events, closing note-offs at
`stepTick(totalSteps)` for still-active notes, and the end-of-track meta. -/
def buildInstrumentTrack (config : RuntimeConfig) (instrumentName : InstrumentName)
    (track : ParsedTrack) : List MidiEvt :=
  let channel := config.channels instrumentName
  let nameEvts : List MidiEvt := [⟨0, MidiEvtKind.trackName⟩]
  let progEvts : List MidiEvt :=
    if instrumentName = DRUMS then []
    else [⟨0, MidiEvtKind.programChange channel (config.gmPrograms instrumentName)⟩]
  let body := buildStepsEvents config instrumentName channel track.steps 0 0 []
  let finalTick := stepTick config (totalSteps config)
  let finalOffs := emitGroup body.2.1 finalTick
    (body.2.2.map (fun p => MidiEvtKind.noteOff channel p))
  nameEvts ++ progEvts ++ body.1 ++ finalOffs.1 ++ [⟨0, MidiEvtKind.endOfTrack⟩]

/-- Absolute tick of the event after a prefix: the sum of the deltas. -/
def absTick (l : List MidiEvt) : ℕ := (l.map MidiEvt.delta).sum

/-- The set of (channel, pitch) pairs opened by a note-on and not yet closed
by a later note-off, scanning one event. -/
def openKind (acc : Finset (ℕ × ℕ)) (k : MidiEvtKind) : Finset (ℕ × ℕ) :=
  match k with
  | .noteOn ch p _ => insert (ch, p) acc
  | .noteOff ch p => acc.erase (ch, p)
  | _ => acc

def openAfter (acc : Finset (ℕ × ℕ)) (l : List MidiEvt) : Finset (ℕ × ℕ) :=
  l.foldl (fun a e => openKind a e.kind) acc

/-- The (channel, pitch) keys of an active-note list. -/
def keySet (channel : ℕ) (active : List ℕ) : Finset (ℕ × ℕ) :=
  (active.map (fun p => (channel, p))).toFinset

/-! ## End of definitions for the SMF encoder. -/

/-! ## Tracker stream parser (trackerParser.ts)

JS strings are modelled as `List Char` (`Str`).  `String.prototype.trim`,
`split`, and the two regexes (`stripLineNumber`'s `^\s*\d+\.?\s+` and the
velocity digit-run extraction `\d+/g`) are modelled character by character.
A thrown parse error is `none`. -/

abbrev Str := List Char

def isWS (c : Char) : Bool := c.isWhitespace

def trimStr (s : Str) : Str :=
  ((s.dropWhile isWS).reverse.dropWhile isWS).reverse

def instName : InstrumentName → Str
  | BASS => ['B', 'A', 'S', 'S']
  | DRUMS => ['D', 'R', 'U', 'M', 'S']
  | PIANO => ['P', 'I', 'A', 'N', 'O']
  | SAX => ['S', 'A', 'X']

/-- `(TRACKER_INSTRUMENTS as string[]).includes(trimmed)`, returning which
instrument the header names. -/
def headerOf (s : Str) : Option InstrumentName :=
  TRACKER_INSTRUMENTS.find? (fun i => instName i == s)

/-- `String.prototype.split` with a one-character separator. -/
def splitOnChar (sep : Char) : Str → List Str
  | [] => [[]]
  | c :: rest =>
    if c = sep then [] :: splitOnChar sep rest
    else
      match splitOnChar sep rest with
      | [] => [[c]]
      | l :: ls => (c :: l) :: ls

/-- `line.replace(/^\s*\d+\.?\s+/, '').trim()`. -/
def stripLineNumber (line : Str) : Str :=
  let r1 := line.dropWhile isWS
  let ds := r1.takeWhile Char.isDigit
  let r2 := r1.dropWhile Char.isDigit
  if ds = [] then trimStr line
  else
    match r2 with
    | '.' :: r3 =>
      if (r3.headD 'x').isWhitespace then trimStr (r3.dropWhile isWS)
      else trimStr line
    | r3 =>
      if (r3.headD 'x').isWhitespace then trimStr (r3.dropWhile isWS)
      else trimStr line

/-- `entry.trim().replace(/[.,;]+$/g, '').trim()`. -/
def cleanEntry (entry : Str) : Str :=
  trimStr (((trimStr entry).reverse.dropWhile
    (fun c => c == '.' || c == ',' || c == ';')).reverse)

/-- Unicode accidentals normalised to ASCII (`♯→#`, `♭→b`, `♮` removed). -/
def normalizeAccidentals (s : Str) : Str :=
  ((s.map (fun c => if c = '♯' then '#' else c)).map
    (fun c => if c = '♭' then 'b' else c)).filter (fun c => !(c == '♮'))

def NOTE_MAP : Str → Option ℕ
  | ['C'] => some 0
  | ['C', '#'] => some 1
  | ['D', 'b'] => some 1
  | ['D'] => some 2
  | ['D', '#'] => some 3
  | ['E', 'b'] => some 3
  | ['E'] => some 4
  | ['F', 'b'] => some 4
  | ['E', '#'] => some 5
  | ['F'] => some 5
  | ['F', '#'] => some 6
  | ['G', 'b'] => some 6
  | ['G'] => some 7
  | ['G', '#'] => some 8
  | ['A', 'b'] => some 8
  | ['A'] => some 9
  | ['A', '#'] => some 10
  | ['B', 'b'] => some 10
  | ['B'] => some 11
  | ['C', 'b'] => some 11
  | ['B', '#'] => some 0
  | _ => none

def isNoteLetter (c : Char) : Bool := 'A' ≤ c && c ≤ 'G'

/-- Does `s` match `-?\d+` in full? -/
def isOctaveShape : Str → Bool
  | '-' :: rest => !rest.isEmpty && rest.all Char.isDigit
  | rest => !rest.isEmpty && rest.all Char.isDigit

def digitsToNat (s : Str) : ℕ :=
  s.foldl (fun n c => n * 10 + (c.toNat - '0'.toNat)) 0

def parseOctave (s : Str) : ℤ :=
  match s with
  | '-' :: rest => -(digitsToNat rest : ℤ)
  | rest => (digitsToNat rest : ℤ)

/-- `noteToMidi`: match `^([A-G][#b]?)(-?\d+)$`, apply the `Cb`/`B#` octave
shifts, look the letter pair up in `NOTE_MAP`, and range-check the result.
An `InvalidNote` throw is `none`. -/
def noteToMidi (noteName : Str) : Option ℤ :=
  let normalized := normalizeAccidentals (trimStr noteName)
  let split : Option (Str × Str) :=
    match normalized with
    | c :: a :: rest =>
      if isNoteLetter c then
        if a == '#' || a == 'b' then
          if isOctaveShape rest then some ([c, a], rest)
          else if isOctaveShape (a :: rest) then some ([c], a :: rest)
          else none
        else if isOctaveShape (a :: rest) then some ([c], a :: rest)
        else none
      else none
    | _ => none
  match split with
  | none => none
  | some (rawNote, octaveStr) =>
    let octave0 := parseOctave octaveStr
    let octave : ℤ :=
      if rawNote = ['C', 'b'] then octave0 - 1
      else if rawNote = ['B', '#'] then octave0 + 1
      else octave0
    match NOTE_MAP rawNote with
    | none => none
    | some offset =>
      let midi := (octave + 1) * 12 + (offset : ℤ)
      if midi < 0 || midi > 127 then none else some midi

structure ParsedNoteEntry where
  notes : List NoteEvent
  isTie : Bool
deriving DecidableEq, Repr

/-- One comma-separated part of a note entry: `some none` is the skipped
empty part, `none` is a `MalformedStep`/`InvalidNote` throw. -/
def parseNotePart (part : Str) : Option (Option NoteEvent) :=
  if part = [] then some none
  else if ((splitOnChar ':' part).drop 1).headD [] = [] then none
  else if (((splitOnChar ':' part).drop 1).headD []).filter Char.isDigit = [] then
    none
  else
    match noteToMidi (normalizeAccidentals
        (trimStr ((splitOnChar ':' part).headD []))) with
    | none => none
    | some pitch =>
      some (some ⟨pitch.toNat,
        min 127 (max 0 (digitsToNat
          ((((splitOnChar ':' part).drop 1).headD []).filter Char.isDigit)))⟩)

def parseParts : List Str → Option (List NoteEvent)
  | [] => some []
  | rawPart :: rest =>
    match parseNotePart (trimStr rawPart) with
    | none => none
    | some none => parseParts rest
    | some (some ev) => (parseParts rest).map (fun ns => ev :: ns)

def parseNoteEntry (entry : Str) : Option ParsedNoteEntry :=
  if cleanEntry entry = [] ∨ cleanEntry entry = ['.'] then some ⟨[], false⟩
  else if cleanEntry entry = ['^'] then some ⟨[], true⟩
  else
    match parseParts (splitOnChar ',' (cleanEntry entry)) with
    | none => none
    | some notes => some ⟨notes, false⟩

structure SectionStep where
  step : TrackerStep
  index : ℕ
  line : Str
deriving DecidableEq, Repr

structure TrackerLineEvent where
  instrument : InstrumentName
  stepIndex : ℕ
  step : TrackerStep
  line : Str
deriving DecidableEq, Repr

structure ParserState where
  totalStepsExpected : ℕ
  partialLine : Str
  currentInstrument : Option InstrumentName
  currentStepCounts : InstrumentName → ℕ
  sections : InstrumentName → List SectionStep
  rawLines : List Str

def initParser (config : RuntimeConfig) : ParserState :=
  ⟨totalSteps config, [], none, fun _ => 0, fun _ => [], []⟩

def updFn {α : Type} (f : InstrumentName → α) (i : InstrumentName) (v : α) :
    InstrumentName → α :=
  fun j => if j = i then v else f j

/-- `this.partialLine = …`: the only mutation `appendChunk` makes besides
processing the complete lines. -/
def setPartial (s : ParserState) (p : Str) : ParserState :=
  { s with partialLine := p }

/-- The body of `TrackerStreamParser.processLine` after the empty check and
the `rawLines` push, on the trimmed line. -/
def processTrimmed (s : ParserState) (trimmed : Str) :
    ParserState × List TrackerLineEvent :=
  if trimmed.headD ' ' = '#' then (s, [])
  else
    match headerOf trimmed with
    | some inst => ({ s with currentInstrument := some inst }, [])
    | none =>
      match s.currentInstrument with
      | none => (s, [])
      | some inst =>
        if s.currentStepCounts inst ≥ s.totalStepsExpected then (s, [])
        else
          match parseNoteEntry (stripLineNumber trimmed) with
          | none => (s, [])
          | some parsed =>
            let stepIndex := s.currentStepCounts inst
            let step : TrackerStep :=
              ⟨parsed.notes, parsed.notes.length == 0 && !parsed.isTie, parsed.isTie⟩
            ({ s with
                currentStepCounts := updFn s.currentStepCounts inst (stepIndex + 1),
                sections := updFn s.sections inst
                  (s.sections inst ++ [⟨step, stepIndex, trimmed⟩]) },
              [⟨inst, stepIndex, step, trimmed⟩])

/-- `TrackerStreamParser.processLine`, returning the updated state and the
events pushed onto `newSteps` (zero or one). -/
def processLine (s : ParserState) (line : Str) :
    ParserState × List TrackerLineEvent :=
  if trimStr line = [] then (s, [])
  else processTrimmed { s with rawLines := s.rawLines ++ [trimStr line] }
    (trimStr line)

def processLines (s : ParserState) :
    List Str → ParserState × List TrackerLineEvent
  | [] => (s, [])
  | line :: rest =>
    let r := processLine s line
    let r2 := processLines r.1 rest
    (r2.1, r.2 ++ r2.2)

def stripCR (s : Str) : Str := s.filter (fun c => !(c == '\r'))

/-- `TrackerStreamParser.appendChunk`. -/
def appendChunk (s : ParserState) (chunk : Str) :
    ParserState × List TrackerLineEvent :=
  let decoded := stripCR chunk
  let lines := splitOnChar '\n' (s.partialLine ++ decoded)
  processLines { s with partialLine := lines.getLastD [] } lines.dropLast

/-- `TrackerStreamParser.finalize`. -/
def finalize (s : ParserState) : ParserState × List TrackerLineEvent :=
  if s.partialLine = [] then (s, [])
  else
    let r := processLine s s.partialLine
    ({ r.1 with partialLine := [] }, r.2)

/-- Feed a sequence of chunks and then finalize, collecting every emitted
`TrackerLineEvent` in order. -/
def runChunks (s : ParserState) (chunks : List Str) :
    ParserState × List TrackerLineEvent :=
  let r := chunks.foldl (fun acc chunk =>
    let r := appendChunk acc.1 chunk
    (r.1, acc.2 ++ r.2)) (s, [])
  let f := finalize r.1
  (f.1, r.2 ++ f.2)

def joinWithNewline : List Str → Str
  | [] => []
  | [s] => s
  | s :: rest => s ++ '\n' :: joinWithNewline rest

/-- The `parts` array of `getRawTrackerText`: for each instrument in the
fixed order, its header, the accepted lines, and a blank separator. -/
def rawTrackerParts (s : ParserState) : List Str :=
  (TRACKER_INSTRUMENTS.map (fun instrument =>
    [instName instrument] ++ (s.sections instrument).map SectionStep.line ++ [[]])).flatten

/-- `TrackerStreamParser.getRawTrackerText`: `parts.join('\n').trim()`. -/
def getRawTrackerText (s : ParserState) : Str :=
  trimStr (joinWithNewline (rawTrackerParts s))

/-- The malformation the claim describes: a non-rest, non-tie body with a
comma-separated part that has no `:`-separated velocity portion or no digit
in it. -/
def MalformedBody (body : Str) : Prop :=
  cleanEntry body ≠ [] ∧ cleanEntry body ≠ ['.'] ∧ cleanEntry body ≠ ['^'] ∧
  ∃ part ∈ splitOnChar ',' (cleanEntry body),
    trimStr part ≠ [] ∧
    (((splitOnChar ':' (trimStr part)).drop 1).headD []).filter Char.isDigit = []

/-- A line the stream parser accepts as a step for the current instrument:
non-empty after trimming, not a comment, not a header, and parseable. -/
def LineOK (l : Str) : Prop :=
  l ≠ [] ∧ l.headD ' ' ≠ '#' ∧ headerOf l = none ∧
    (parseNoteEntry (stripLineNumber l)).isSome

/-- The parser's running invariant, relating a state to the events emitted so
far: per instrument, the step counter equals the number of emitted events,
indices are consecutive from 0, the counter never exceeds `totalSteps`, the
stored section steps track the counter, and every stored line was accepted. -/
structure ParserInv (config : RuntimeConfig) (s : ParserState)
    (evs : List TrackerLineEvent) : Prop where
  total_eq : s.totalStepsExpected = totalSteps config
  counts_eq : ∀ i, s.currentStepCounts i
    = (evs.filter (fun e => e.instrument == i)).length
  counts_le : ∀ i, s.currentStepCounts i ≤ totalSteps config
  idx_eq : ∀ i, (evs.filter (fun e => e.instrument == i)).map
      TrackerLineEvent.stepIndex
    = List.range (s.currentStepCounts i)
  sections_count : ∀ i, (s.sections i).length = s.currentStepCounts i
  sections_ok : ∀ i, ∀ sec ∈ s.sections i, LineOK sec.line

/-! ## Soundfont section coordinator (playback.ts, `SoundfontPlayback`)

The state below keeps the fields of `SoundfontPlayback` that take part in
section-time bookkeeping: `startTime`, `sectionDuration`, `lastStepIndices`,
`instrumentSections`, `sectionStartTimes` and `pendingSections`.
`maxSectionStart` is not kept: it only feeds `getLeadSeconds`.  `Map`s become
total functions into `Option`; `getAudioTime()` is an explicit `now`
argument on each call. -/

/-- `stepStartSeconds(stepIndex, quarter, base, pairDuration)` with
`quarter = 60/tempo`, `base = quarter/4`, `pairDuration = base*2` inlined. -/
def stepStartSeconds (cfg : RuntimeConfig) (stepIndex : ℕ) : ℚ :=
  if stepIndex = 0 then 0
  else if stepIndex % 2 = 0 then
    ((stepIndex / 2 : ℕ) : ℚ) * (2 * (60 / cfg.tempo / 4))
  else if !cfg.swingEnabled then
    ((stepIndex / 2 : ℕ) : ℚ) * (2 * (60 / cfg.tempo / 4)) + 60 / cfg.tempo / 4
  else
    ((stepIndex / 2 : ℕ) : ℚ) * (2 * (60 / cfg.tempo / 4))
      + 2 * (60 / cfg.tempo / 4) * min (max cfg.swingRatio 0) 1

/-- `prepare`'s section duration: `stepStartSeconds(total)`, replaced by
`max(base, total * base)` when non-positive. -/
def sectionDurationOf (cfg : RuntimeConfig) : ℚ :=
  if stepStartSeconds cfg (totalSteps cfg) ≤ 0 then
    max (60 / cfg.tempo / 4) ((totalSteps cfg : ℚ) * (60 / cfg.tempo / 4))
  else stepStartSeconds cfg (totalSteps cfg)

structure SoundfontState where
  startTime : ℚ
  sectionDuration : ℚ
  lastStepIndices : InstrumentName → ℤ
  instrumentSections : InstrumentName → ℕ
  sectionStartTimes : ℕ → Option ℚ
  pendingSections : ℕ → ℕ → InstrumentName → Option TrackerStep

/-- The part of `prepare` that resets the coordinator: counters cleared,
`sectionDuration` and `startTime` computed, section 0's start installed. -/
def soundfontPrepare (cfg : RuntimeConfig) (now0 : ℚ) : SoundfontState where
  startTime := now0 + sectionDurationOf cfg * (SECTION_BUFFER : ℚ) + INITIAL_LOOKAHEAD
  sectionDuration := sectionDurationOf cfg
  lastStepIndices := fun _ => -1
  instrumentSections := fun _ => 0
  sectionStartTimes := fun k =>
    if k = 0 then
      some (now0 + sectionDurationOf cfg * (SECTION_BUFFER : ℚ) + INITIAL_LOOKAHEAD)
    else none
  pendingSections := fun _ _ _ => none

/-- `sectionStartTimes.set(ns, v)`. -/
def assignedTimes (times : ℕ → Option ℚ) (ns : ℕ) (v : ℚ) : ℕ → Option ℚ :=
  fun k => if k = ns then some v else times k

/-- `enqueueStep`'s assignment of a fresh section start:
`max(prevSectionStart + sectionDuration, now + SECTION_LOOKAHEAD)`, only when
`sectionStartTimes` has no entry for `newSection` yet. -/
def assignSection (s : SoundfontState) (newSection : ℕ) (now : ℚ) :
    SoundfontState :=
  if (s.sectionStartTimes newSection).isSome then s
  else
    { s with sectionStartTimes :=
        (assignedTimes s.sectionStartTimes newSection
          (max ((s.sectionStartTimes (newSection - 1)).getD s.startTime
              + s.sectionDuration) (now + SECTION_LOOKAHEAD))) }

/-- `this.instrumentSections[instrument]++`. -/
def bumpSection (s : SoundfontState) (instrument : InstrumentName) :
    SoundfontState :=
  { s with instrumentSections :=
      (updFn s.instrumentSections instrument
        (s.instrumentSections instrument + 1)) }

/-- `this.lastStepIndices[instrument] = stepIndex`. -/
def setLastStepIndex (s : SoundfontState) (instrument : InstrumentName)
    (v : ℤ) : SoundfontState :=
  { s with lastStepIndices := updFn s.lastStepIndices instrument v }

/-- The loop-detection block of `enqueueStep`: when the instrument's step
index went backwards, bump its section counter and assign the new section's
start time if absent. -/
def sfLoop (s : SoundfontState) (instrument : InstrumentName)
    (stepIndex : ℕ) (now : ℚ) : SoundfontState :=
  if 0 ≤ s.lastStepIndices instrument
      ∧ (stepIndex : ℤ) < s.lastStepIndices instrument then
    assignSection (bumpSection s instrument)
      (s.instrumentSections instrument + 1) now
  else s

/-- The sections-start map written by `scheduleCombinedStep`'s late branch:
the section itself moves to `t0 + shift` and every later entry is shifted
by the same amount; earlier entries are untouched. -/
def shiftedTimes (times : ℕ → Option ℚ) (sec : ℕ) (t0 shift : ℚ) :
    ℕ → Option ℚ :=
  fun k =>
    if k = sec then some (t0 + shift)
    else if sec < k then (times k).map (fun t => t + shift)
    else times k

/-- `scheduleCombinedStep`, restricted to its effect on the coordinator
state: the on-time branch changes nothing, the late branch shifts the
section and all later sections forward by the deficit. -/
def scheduleCombinedStep (cfg : RuntimeConfig) (s : SoundfontState)
    (sec stepIndex : ℕ) (now : ℚ) : SoundfontState :=
  if (s.sectionStartTimes sec).getD s.startTime + stepStartSeconds cfg stepIndex
      < now + SECTION_LOOKAHEAD then
    { s with sectionStartTimes :=
        (shiftedTimes s.sectionStartTimes sec
          ((s.sectionStartTimes sec).getD s.startTime)
          (now + SECTION_LOOKAHEAD
            - ((s.sectionStartTimes sec).getD s.startTime
              + stepStartSeconds cfg stepIndex))) }
  else s

/-- Writing one `(section, stepIndex)` cell of `pendingSections`. -/
def setPendingCell (s : SoundfontState) (sec stepIndex : ℕ)
    (cell : InstrumentName → Option TrackerStep) : SoundfontState :=
  { s with pendingSections := fun sc idx =>
      if sc = sec ∧ idx = stepIndex then cell else s.pendingSections sc idx }

/-- `existing[instrument] = step` on a pending cell. -/
def pendingCellAdd (cell : InstrumentName → Option TrackerStep)
    (instrument : InstrumentName) (step : TrackerStep) :
    InstrumentName → Option TrackerStep :=
  fun i => if i = instrument then some step else cell i

/-- `bufferStep`: record the instrument's step in the pending cell; once all
four instruments are present, clear the cell and fire
`scheduleCombinedStep`.  (Deleting the enclosing section map when it becomes
empty is observationally the empty map, so the cleared cell suffices.) -/
def bufferStep (cfg : RuntimeConfig) (s : SoundfontState)
    (sec stepIndex : ℕ) (instrument : InstrumentName) (step : TrackerStep)
    (now : ℚ) : SoundfontState :=
  if TRACKER_INSTRUMENTS.all (fun i =>
      (pendingCellAdd (s.pendingSections sec stepIndex) instrument step i).isSome) then
    scheduleCombinedStep cfg
      (setPendingCell s sec stepIndex (fun _ => none)) sec stepIndex now
  else
    setPendingCell s sec stepIndex
      (pendingCellAdd (s.pendingSections sec stepIndex) instrument step)

/-- `enqueueStep` (the `context`/`synth` guards hold after `prepare`):
loop detection, `lastStepIndices` write, then `bufferStep` on the
instrument's current section. -/
def enqueueStep (cfg : RuntimeConfig) (s : SoundfontState)
    (instrument : InstrumentName) (stepIndex : ℕ) (step : TrackerStep)
    (now : ℚ) : SoundfontState :=
  bufferStep cfg
    (setLastStepIndex (sfLoop s instrument stepIndex now) instrument stepIndex)
    ((setLastStepIndex (sfLoop s instrument stepIndex now) instrument
        stepIndex).instrumentSections instrument)
    stepIndex instrument step now

/-- One observed `enqueueStep` call: the tracker event plus the audio clock
reading at that moment. -/
structure SfOp where
  instrument : InstrumentName
  stepIndex : ℕ
  step : TrackerStep
  now : ℚ

def runSf (cfg : RuntimeConfig) (s : SoundfontState) : List SfOp → SoundfontState
  | [] => s
  | op :: rest =>
    runSf cfg (enqueueStep cfg s op.instrument op.stepIndex op.step op.now) rest

/-- The coordinator invariant: positive section duration, a contiguous
domain `[0..m]` of assigned section starts, strictly increasing start times,
and every instrument sitting in an assigned section. -/
structure SoundfontInv (s : SoundfontState) : Prop where
  dur_pos : 0 < s.sectionDuration
  dom : ∃ m, ∀ k, (s.sectionStartTimes k).isSome ↔ k ≤ m
  mono : ∀ j k tj tk, j < k → s.sectionStartTimes j = some tj →
    s.sectionStartTimes k = some tk → tj < tk
  sect : ∀ i, (s.sectionStartTimes (s.instrumentSections i)).isSome

/-! ## Context buffer (generator.ts, `TrackerContext`) -/

/-- Remove one trailing `'\r'`, as the `\r?` of the `/\r?\n/` separator. -/
def dropTrailCR (s : Str) : Str :=
  if s.getLast? = some '\r' then s.dropLast else s

/-- `trackerText.split(/\r?\n/)`: split on `'\n'` and strip the `'\r'` that
immediately preceded each `'\n'`. -/
def splitLinesCRLF (text : Str) : List Str :=
  (splitOnChar '\n' text).dropLast.map dropTrailCR
    ++ [(splitOnChar '\n' text).getLastD []]

/-- One line of `extractInstrumentSections`' scan: blank lines skipped,
headers switch the current instrument, other lines go to its bucket. -/
def extractStep (acc : Option InstrumentName × (InstrumentName → List Str))
    (rawLine : Str) : Option InstrumentName × (InstrumentName → List Str) :=
  if trimStr rawLine = [] then acc
  else
    match headerOf (trimStr rawLine) with
    | some inst => (some inst, acc.2)
    | none =>
      match acc.1 with
      | none => acc
      | some cur => (acc.1, updFn acc.2 cur (acc.2 cur ++ [trimStr rawLine]))

def extractInstrumentSections (text : Str) : InstrumentName → List Str :=
  ((splitLinesCRLF text).foldl extractStep (none, fun _ => [])).2

structure TrackerContext where
  maxSteps : ℕ
  history : InstrumentName → List Str
  trimmed : InstrumentName → Bool

/-- `new TrackerContext(maxSteps)` with `Math.max(0, maxSteps)`. -/
def initContext (maxSteps : ℤ) : TrackerContext :=
  ⟨(max 0 maxSteps).toNat, fun _ => [], fun _ => false⟩

def resetContext (ctx : TrackerContext) : TrackerContext :=
  { ctx with history := fun _ => [], trimmed := fun _ => false }

/-- `TrackerContext.incorporate`: per instrument, append the stripped
additions to the history, keep the last `maxSteps` entries when the combined
list overflows, and write the overflow test's result into the `trimmed`
flag. -/
def incorporate (ctx : TrackerContext) (text : Str) : TrackerContext :=
  if ctx.maxSteps = 0 then resetContext ctx
  else
    { ctx with
      history := fun inst =>
        if (ctx.history inst
            ++ (extractInstrumentSections text inst).map stripLineNumber).length
            > ctx.maxSteps then
          (ctx.history inst
            ++ (extractInstrumentSections text inst).map stripLineNumber).drop
            ((ctx.history inst
              ++ (extractInstrumentSections text inst).map stripLineNumber).length
              - ctx.maxSteps)
        else ctx.history inst
          ++ (extractInstrumentSections text inst).map stripLineNumber,
      trimmed := fun inst =>
        decide ((ctx.history inst
          ++ (extractInstrumentSections text inst).map stripLineNumber).length
          > ctx.maxSteps) }

/-- A generation whose `BASS` section holds two step lines, used to overflow
a capacity-1 context buffer. -/
def twoStepTrackerText : Str :=
  ['B', 'A', 'S', 'S', '\n', '1', ' ', 'C', '2', ':', '8', '0', '\n',
   '2', ' ', 'D', '2', ':', '8', '1']

/-- A parser state that has just consumed the `BASS` header, used to
evaluate the malformed-line behaviour on a concrete stream. -/
def bassHeaderState : ParserState :=
  (processLine (initParser DEFAULT_CONFIG) ['B', 'A', 'S', 'S']).1

/-! ## End of definitions for the stream parser. -/

/-! ## THEOREMS -/

/-! ### Scheduler lemmas -/

theorem EPSILON_pos : (0 : ℚ) < EPSILON := by norm_num [EPSILON]

theorem cmpEvents_neg (a b : InternalScheduledEvent) :
    cmpEvents a b = -cmpEvents b a := by
  unfold cmpEvents
  by_cases h1 : |a.time - b.time| > EPSILON
  · have h1' : |b.time - a.time| > EPSILON := by rwa [abs_sub_comm]
    rw [if_pos h1, if_pos h1']
    ring
  · have h1' : ¬ |b.time - a.time| > EPSILON := by rwa [abs_sub_comm]
    by_cases h2 : a.priority ≠ b.priority
    · have h2' : b.priority ≠ a.priority := Ne.symm h2
      rw [if_neg h1, if_neg h1', if_pos h2, if_pos h2']
      push_cast
      ring
    · have h2' : ¬ b.priority ≠ a.priority := fun h => h2 (Ne.symm h)
      rw [if_neg h1, if_neg h1', if_neg h2, if_neg h2']
      push_cast
      ring

theorem cmpEvents_le_of_not_le {a b : InternalScheduledEvent}
    (h : ¬ cmpEvents a b ≤ 0) : cmpEvents b a ≤ 0 := by
  rw [cmpEvents_neg b a]
  push_neg at h
  linarith

theorem insertEvent_head? (e : InternalScheduledEvent)
    (l : List InternalScheduledEvent) :
    (insertEvent e l).head? = some e ∨ (insertEvent e l).head? = l.head? := by
  cases l with
  | nil => left; rfl
  | cons h1 t =>
    by_cases hc : cmpEvents e h1 ≤ 0 <;> simp [insertEvent, hc]

theorem chain'_insertEvent (e : InternalScheduledEvent)
    (l : List InternalScheduledEvent)
    (h : List.Chain' (fun a b => cmpEvents a b ≤ 0) l) :
    List.Chain' (fun a b => cmpEvents a b ≤ 0) (insertEvent e l) := by
  induction l with
  | nil => simp [insertEvent]
  | cons h1 t ih =>
    by_cases hc : cmpEvents e h1 ≤ 0
    · have heq : insertEvent e (h1 :: t) = e :: h1 :: t := by
        simp [insertEvent, hc]
      rw [heq]
      exact List.chain'_cons.mpr ⟨hc, h⟩
    · have htail : List.Chain' (fun a b => cmpEvents a b ≤ 0) t := h.tail

      have hins := ih htail
      have heq : insertEvent e (h1 :: t) = h1 :: insertEvent e t := by
        simp [insertEvent, hc]
      rw [heq]
      refine List.chain'_cons'.mpr ⟨?_, hins⟩
      intro y hy
      rcases insertEvent_head? e t with hh | hh
      · rw [hh] at hy
        cases hy
        exact cmpEvents_le_of_not_le hc
      · rw [hh] at hy
        exact (List.chain'_cons'.mp h).1 y hy

theorem chain'_sortEvents (l : List InternalScheduledEvent) :
    List.Chain' (fun a b => cmpEvents a b ≤ 0) (sortEvents l) := by
  induction l with
  | nil => simp [sortEvents]
  | cons h1 t ih => exact chain'_insertEvent h1 (sortEvents t) ih

theorem cmpEvents_markCancelled (i : ℕ) (a b : InternalScheduledEvent) :
    cmpEvents (if a.id = i then { a with cancelled := true } else a)
      (if b.id = i then { b with cancelled := true } else b) = cmpEvents a b := by
  unfold cmpEvents
  split <;> split <;> rfl

theorem chain'_applyOp (s : SchedulerState) (op : SchedOp)
    (h : List.Chain' (fun a b => cmpEvents a b ≤ 0) s.events) :
    List.Chain' (fun a b => cmpEvents a b ≤ 0) (applyOp s op).events := by
  cases op with
  | sched t p => exact chain'_sortEvents _
  | cancel i =>
    simp only [applyOp, cancelEvent]
    rw [List.chain'_map]
    exact h.imp fun a b hab => by rw [cmpEvents_markCancelled]; exact hab

theorem chain'_runOps (ops : List SchedOp) :
    List.Chain' (fun a b => cmpEvents a b ≤ 0) (runOps ops).events := by
  have main : ∀ (l : List SchedOp) (s : SchedulerState),
      List.Chain' (fun a b => cmpEvents a b ≤ 0) s.events →
      List.Chain' (fun a b => cmpEvents a b ≤ 0) (l.foldl applyOp s).events := by
    intro l
    induction l with
    | nil => intro s hs; exact hs
    | cons op rest ih =>
      intro s hs
      exact ih (applyOp s op) (chain'_applyOp s op hs)
  exact main ops initScheduler (by simp [initScheduler])

theorem flushDrain_cons_far {now : ℚ} {e : InternalScheduledEvent}
    {rest : List InternalScheduledEvent} (h1 : e.time - now > EPSILON) :
    flushDrain now (e :: rest) = ([], e :: rest) := by
  simp [flushDrain, h1]

theorem flushDrain_cons_cancelled {now : ℚ} {e : InternalScheduledEvent}
    {rest : List InternalScheduledEvent} (h1 : ¬ e.time - now > EPSILON)
    (h2 : e.cancelled = true) :
    flushDrain now (e :: rest) =
      ((flushDrain now rest).1, (flushDrain now rest).2) := by
  simp [flushDrain, h1, h2]

theorem flushDrain_cons_live {now : ℚ} {e : InternalScheduledEvent}
    {rest : List InternalScheduledEvent} (h1 : ¬ e.time - now > EPSILON)
    (h2 : e.cancelled = false) :
    flushDrain now (e :: rest) =
      (e :: (flushDrain now rest).1, (flushDrain now rest).2) := by
  simp [flushDrain, h1, h2]

theorem flushDrain_executed_not_cancelled (now : ℚ)
    (l : List InternalScheduledEvent) :
    ∀ e ∈ (flushDrain now l).1, e.cancelled = false := by
  induction l with
  | nil => simp [flushDrain]
  | cons e rest ih =>
    by_cases h1 : e.time - now > EPSILON
    · rw [flushDrain_cons_far h1]
      simp
    · by_cases h2 : e.cancelled
      · rw [flushDrain_cons_cancelled h1 h2]
        exact ih
      · rw [flushDrain_cons_live h1 (Bool.not_eq_true _ ▸ h2)]
        intro x hx
        rcases List.mem_cons.mp hx with hx | hx
        · rw [hx]
          exact Bool.not_eq_true _ ▸ h2
        · exact ih x hx

theorem flushDrain_executed_sublist (now : ℚ)
    (l : List InternalScheduledEvent) :
    (flushDrain now l).1.Sublist l := by
  induction l with
  | nil => simp [flushDrain]
  | cons e rest ih =>
    by_cases h1 : e.time - now > EPSILON
    · rw [flushDrain_cons_far h1]
      simp
    · by_cases h2 : e.cancelled
      · rw [flushDrain_cons_cancelled h1 h2]
        exact ih.cons e
      · rw [flushDrain_cons_live h1 (Bool.not_eq_true _ ▸ h2)]
        exact ih.cons₂ e

theorem time_chain_of_cmp_chain (l : List InternalScheduledEvent)
    (h : List.Chain' (fun a b => cmpEvents a b ≤ 0) l) :
    List.Chain' (fun a b => a.time - EPSILON ≤ b.time) l := by
  refine h.imp fun a b hab => ?_
  unfold cmpEvents at hab
  by_cases h1 : |a.time - b.time| > EPSILON
  · simp only [h1, if_true] at hab
    have := EPSILON_pos
    linarith
  · push_neg at h1
    have := (abs_le.mp h1).2
    linarith

theorem flushWith_cons_far {throws : ℕ → Bool} {now : ℚ}
    {e : InternalScheduledEvent} {rest : List InternalScheduledEvent}
    (h1 : e.time - now > EPSILON) :
    flushWith throws now (e :: rest) = ⟨[], e :: rest, none⟩ := by
  simp [flushWith, h1]

theorem flushWith_cons_cancelled {throws : ℕ → Bool} {now : ℚ}
    {e : InternalScheduledEvent} {rest : List InternalScheduledEvent}
    (h1 : ¬ e.time - now > EPSILON) (h2 : e.cancelled = true) :
    flushWith throws now (e :: rest) = flushWith throws now rest := by
  simp [flushWith, h1, h2]

theorem flushWith_cons_throw {throws : ℕ → Bool} {now : ℚ}
    {e : InternalScheduledEvent} {rest : List InternalScheduledEvent}
    (h1 : ¬ e.time - now > EPSILON) (h2 : e.cancelled = false)
    (h3 : throws e.id = true) :
    flushWith throws now (e :: rest) = ⟨[], rest, some e.id⟩ := by
  simp [flushWith, h1, h2, h3]

theorem flushWith_cons_run {throws : ℕ → Bool} {now : ℚ}
    {e : InternalScheduledEvent} {rest : List InternalScheduledEvent}
    (h1 : ¬ e.time - now > EPSILON) (h2 : e.cancelled = false)
    (h3 : throws e.id = false) :
    flushWith throws now (e :: rest) =
      ⟨e :: (flushWith throws now rest).executed,
        (flushWith throws now rest).remaining,
        (flushWith throws now rest).thrown⟩ := by
  simp [flushWith, h1, h2, h3]

/-! ### Claim theorems: scheduler and SMF tick placement -/

/-- C1: the spec states that for odd step index `i < totalSteps` with swing
disabled, `stepTick(config, i) = floor(i/2)·2T + T`.  The code's condition
`!config.swingEnabled || !isOffbeat` returns the bare pair start instead, so
at the failing input (default config with swing off, step 1) the encoder
produces tick 0 where the spec — and the otherwise-identical
`stepStartSeconds` in playback.ts, which returns `pairStart + base` when
swing is disabled — places the step at tick T = 120. -/
theorem stepTick_swing_disabled_odd_bug :
    stepTick noSwingConfig 1 = 0 ∧
    ((1 : ℕ) / 2) * (2 * ticksPerStep noSwingConfig) + ticksPerStep noSwingConfig = 120 ∧
    (0 : ℤ) ≠ 120 := by
  refine ⟨by decide, by decide, by decide⟩

/-- C2 (amended): a callback that throws during `TimelineScheduler.flush` is
not caught: the exception propagates out of the flush, the executed events
are exactly the due non-cancelled events that preceded the thrower, and
every event after the thrower — due or not — is left in the queue
unexecuted. -/
theorem scheduler_flush_throw_propagates (throws : ℕ → Bool) (now : ℚ)
    (evs : List InternalScheduledEvent) (i : ℕ)
    (h : (flushWith throws now evs).thrown = some i) :
    ThrowAborts throws now evs i := by
  induction evs with
  | nil => simp [flushWith] at h
  | cons e rest ih =>
    by_cases h1 : e.time - now > EPSILON
    · rw [flushWith_cons_far h1] at h
      simp at h
    · by_cases h2 : e.cancelled
      · rw [flushWith_cons_cancelled h1 h2] at h
        obtain ⟨pre, e', post, hsplit, hid, hcanc, hthr, htime, hrem, hexec⟩ := ih h
        refine ⟨e :: pre, e', post, by rw [hsplit]; rfl, hid, hcanc, hthr, htime, ?_, ?_⟩
        · rw [flushWith_cons_cancelled h1 h2]
          exact hrem
        · rw [flushWith_cons_cancelled h1 h2, hexec]
          simp [List.filter_cons, h2]
      · have h2' : e.cancelled = false := Bool.not_eq_true _ ▸ h2
        by_cases h3 : throws e.id
        · rw [flushWith_cons_throw h1 h2' h3] at h
          have hi : e.id = i := by simpa using h
          refine ⟨[], e, rest, rfl, hi, h2', h3, le_of_not_lt h1, ?_, ?_⟩
          · rw [flushWith_cons_throw h1 h2' h3]
          · rw [flushWith_cons_throw h1 h2' h3]
            rfl
        · have h3' : throws e.id = false := Bool.not_eq_true _ ▸ h3
          rw [flushWith_cons_run h1 h2' h3'] at h
          obtain ⟨pre, e', post, hsplit, hid, hcanc, hthr, htime, hrem, hexec⟩ := ih h
          refine ⟨e :: pre, e', post, by rw [hsplit]; rfl, hid, hcanc, hthr, htime, ?_, ?_⟩
          · rw [flushWith_cons_run h1 h2' h3']
            exact hrem
          · rw [flushWith_cons_run h1 h2' h3', hexec]
            simp [List.filter_cons, h2']

/-- Witness for C2's amended theorem at a concrete flush: one due throwing
event followed by one due ordinary event. -/
theorem scheduler_flush_throw_propagates_witness :
    ThrowAborts (fun i => i == 0) 1
      [⟨0, 0, 0, false⟩, ⟨0, 0, 1, false⟩] 0 :=
  scheduler_flush_throw_propagates (fun i => i == 0) 1
    [⟨0, 0, 0, false⟩, ⟨0, 0, 1, false⟩] 0 (by
      rw [flushWith_cons_throw (by norm_num [EPSILON]) rfl rfl])

/-- C2 (counterexample): the claim says a throwing callback is caught and the
flush continues with the remaining due events.  At this concrete input the
exception instead escapes the flush (`thrown = some 0`) and the second due
event's callback is never run during the flush — it stays in the queue. -/
theorem scheduler_flush_catch_counterexample :
    (flushWith (fun i => i == 0) 1
        [⟨0, 0, 0, false⟩, ⟨0, 0, 1, false⟩]).thrown = some 0 ∧
    (flushWith (fun i => i == 0) 1
        [⟨0, 0, 0, false⟩, ⟨0, 0, 1, false⟩]).executed = [] ∧
    (flushWith (fun i => i == 0) 1
        [⟨0, 0, 0, false⟩, ⟨0, 0, 1, false⟩]).remaining = [⟨0, 0, 1, false⟩] := by
  rw [flushWith_cons_throw (by norm_num [EPSILON]) rfl rfl]
  exact ⟨rfl, rfl, rfl⟩

/-- C7 (amended): after any sequence of schedule and cancel calls, a flush
never executes a cancelled event's callback, executes events in queue order
(the executed list is a sublist of the queue), and the queue kept by the
epsilon-banded comparator has consecutive entries non-decreasing in time up
to EPSILON — but not strictly non-decreasing, see the counterexample. -/
theorem scheduler_drain_order (ops : List SchedOp) (now : ℚ) :
    (∀ e ∈ (flushDrain now (runOps ops).events).1, e.cancelled = false) ∧
    (flushDrain now (runOps ops).events).1.Sublist (runOps ops).events ∧
    List.Chain' (fun a b => a.time - EPSILON ≤ b.time) (runOps ops).events :=
  ⟨flushDrain_executed_not_cancelled _ _, flushDrain_executed_sublist _ _,
    time_chain_of_cmp_chain _ (chain'_runOps ops)⟩

/-! ### SMF encoder lemmas (C3) -/

theorem emitGroup_kinds (lastTick tick : ℤ) (ks : List MidiEvtKind) :
    (emitGroup lastTick tick ks).1.map MidiEvt.kind = ks := by
  match ks with
  | [] => rfl
  | k :: rest =>
    simp only [emitGroup, List.map_cons, List.map_map, List.cons.injEq, true_and]
    exact List.map_id rest

theorem openAfter_nil (acc : Finset (ℕ × ℕ)) : openAfter acc [] = acc := rfl

theorem openAfter_append (acc : Finset (ℕ × ℕ)) (l1 l2 : List MidiEvt) :
    openAfter acc (l1 ++ l2) = openAfter (openAfter acc l1) l2 := by
  simp [openAfter, List.foldl_append]

theorem openAfter_cons (acc : Finset (ℕ × ℕ)) (e : MidiEvt) (l : List MidiEvt) :
    openAfter acc (e :: l) = openAfter (openKind acc e.kind) l := rfl

theorem openAfter_eq_kinds (acc : Finset (ℕ × ℕ)) (l : List MidiEvt) :
    openAfter acc l = (l.map MidiEvt.kind).foldl openKind acc := by
  simp [openAfter, List.foldl_map]

theorem off_mem_of_open_gone (x : ℕ × ℕ) (y : List MidiEvt) (acc : Finset (ℕ × ℕ))
    (hx : x ∈ acc) (hy : x ∉ openAfter acc y) :
    ∃ e ∈ y, e.kind = MidiEvtKind.noteOff x.1 x.2 := by
  induction y generalizing acc with
  | nil => exact absurd hx (by simpa [openAfter] using hy)
  | cons e rest ih =>
    rw [openAfter_cons] at hy
    cases hk : e.kind with
    | noteOn ch p v =>
      rw [hk] at hy
      obtain ⟨e', hmem, hkind⟩ :=
        ih (insert (ch, p) acc) (Finset.mem_insert_of_mem hx) hy
      exact ⟨e', List.mem_cons_of_mem _ hmem, hkind⟩
    | noteOff ch p =>
      by_cases hxx : x = (ch, p)
      · refine ⟨e, List.mem_cons_self _ _, ?_⟩
        rw [hk, hxx]
      · rw [hk] at hy
        obtain ⟨e', hmem, hkind⟩ :=
          ih (acc.erase (ch, p)) (Finset.mem_erase_of_ne_of_mem hxx hx) hy
        exact ⟨e', List.mem_cons_of_mem _ hmem, hkind⟩
    | trackName =>
      rw [hk] at hy
      obtain ⟨e', hmem, hkind⟩ := ih acc hx hy
      exact ⟨e', List.mem_cons_of_mem _ hmem, hkind⟩
    | programChange ch pr =>
      rw [hk] at hy
      obtain ⟨e', hmem, hkind⟩ := ih acc hx hy
      exact ⟨e', List.mem_cons_of_mem _ hmem, hkind⟩
    | endOfTrack =>
      rw [hk] at hy
      obtain ⟨e', hmem, hkind⟩ := ih acc hx hy
      exact ⟨e', List.mem_cons_of_mem _ hmem, hkind⟩

theorem keySet_nil (channel : ℕ) : keySet channel [] = ∅ := rfl

theorem keySet_cons (channel p : ℕ) (l : List ℕ) :
    keySet channel (p :: l) = insert (channel, p) (keySet channel l) := by
  simp [keySet]

theorem foldl_erase_keySet (channel : ℕ) (l : List ℕ) (S : Finset (ℕ × ℕ)) :
    l.foldl (fun a p => a.erase (channel, p)) S = S \ keySet channel l := by
  induction l generalizing S with
  | nil => simp [keySet]
  | cons p rest ih =>
    rw [List.foldl_cons, ih, keySet_cons]
    ext y
    simp only [Finset.mem_sdiff, Finset.mem_erase, Finset.mem_insert]
    tauto

theorem keySet_addActive (channel p : ℕ) (l : List ℕ) :
    keySet channel (addActive p l) = insert (channel, p) (keySet channel l) := by
  unfold addActive
  split
  · rename_i hp
    have : (channel, p) ∈ keySet channel l := by
      simp only [keySet, List.mem_toFinset, List.mem_map]
      exact ⟨p, hp, rfl⟩
    rw [Finset.insert_eq_self.mpr this]
  · have huni : keySet channel (l ++ [p]) = keySet channel l ∪ {(channel, p)} := by
      simp [keySet]
    rw [huni, Finset.union_comm, ← Finset.insert_eq]

theorem keySet_foldl_addActive (channel : ℕ) (notes : List NoteEvent)
    (active0 : List ℕ) :
    keySet channel (notes.foldl (fun acc n => addActive n.pitch acc) active0)
      = notes.foldl (fun A n => insert (channel, n.pitch) A) (keySet channel active0) := by
  induction notes generalizing active0 with
  | nil => rfl
  | cons n rest ih =>
    rw [List.foldl_cons, List.foldl_cons, ih (addActive n.pitch active0),
      keySet_addActive]

theorem foldl_insert_keySet (channel : ℕ) (notes : List NoteEvent)
    (S : Finset (ℕ × ℕ)) :
    notes.foldl (fun A n => insert (channel, n.pitch) A) S
      = S ∪ keySet channel (notes.map NoteEvent.pitch) := by
  induction notes generalizing S with
  | nil => simp [keySet]
  | cons n rest ih =>
    rw [List.foldl_cons, ih, List.map_cons, keySet_cons]
    ext y
    simp only [Finset.mem_union, Finset.mem_insert]
    tauto

/-- The note-off group for the active notes erases exactly their keys. -/
theorem openAfter_offGroup (channel : ℕ) (lastTick tick : ℤ) (active : List ℕ)
    (S : Finset (ℕ × ℕ)) :
    openAfter S (emitGroup lastTick tick
        (active.map (fun p => MidiEvtKind.noteOff channel p))).1
      = S \ keySet channel active := by
  rw [openAfter_eq_kinds, emitGroup_kinds, List.foldl_map]
  exact foldl_erase_keySet channel active S

/-- The note-on group for a chord inserts exactly the chord's keys. -/
theorem openAfter_onGroup (channel : ℕ) (lastTick tick : ℤ) (notes : List NoteEvent)
    (S : Finset (ℕ × ℕ)) :
    openAfter S (emitGroup lastTick tick
        (notes.map (fun n => MidiEvtKind.noteOn channel n.pitch (clampVel n.velocity)))).1
      = S ∪ keySet channel (notes.map NoteEvent.pitch) := by
  rw [openAfter_eq_kinds, emitGroup_kinds, List.foldl_map]
  exact foldl_insert_keySet channel notes S

/-- Through the melodic step loop, the keys left open by the emitted events
are exactly the keys of the final active-note list. -/
theorem openAfter_buildSteps_melodic (c : RuntimeConfig) (ins : InstrumentName)
    (ch : ℕ) (hinst : ¬ ins = DRUMS) (steps : List TrackerStep) :
    ∀ (idx : ℕ) (lt : ℤ) (act : List ℕ),
      openAfter (keySet ch act) (buildStepsEvents c ins ch steps idx lt act).1
        = keySet ch (buildStepsEvents c ins ch steps idx lt act).2.2 := by
  induction steps with
  | nil =>
    intro idx lt act
    simp [buildStepsEvents, openAfter]
  | cons step rest ih =>
    intro idx lt act
    by_cases htie : step.isTie = true
    · simp only [buildStepsEvents, if_neg hinst, htie, if_true]
      exact ih _ _ _
    · have htie' : step.isTie = false := by
        simpa using htie
      by_cases hrest : (step.isRest || step.notes.length == 0) = true
      · simp only [buildStepsEvents, if_neg hinst, htie', Bool.false_eq_true,
          if_false, hrest, if_true]
        rw [openAfter_append, openAfter_offGroup, Finset.sdiff_self]
        have hzero : (∅ : Finset (ℕ × ℕ)) = keySet ch [] := rfl
        rw [hzero]
        exact ih _ _ []
      · have hrest' : (step.isRest || step.notes.length == 0) = false := by
          simpa using hrest
        simp only [buildStepsEvents, if_neg hinst, htie', Bool.false_eq_true,
          if_false, hrest', if_false]
        rw [openAfter_append, openAfter_append, openAfter_offGroup,
          Finset.sdiff_self, openAfter_onGroup, Finset.empty_union]
        have hkeys : keySet ch (step.notes.map NoteEvent.pitch)
            = keySet ch (step.notes.foldl (fun acc n => addActive n.pitch acc) []) := by
          rw [keySet_foldl_addActive, foldl_insert_keySet]
          rw [keySet_nil, Finset.empty_union]
        rw [hkeys]
        exact ih _ _ _

/-- Through the DRUMS step loop started with no active notes, every emitted
note-on is closed within its own step block and the active list stays empty. -/
theorem openAfter_buildSteps_drums (c : RuntimeConfig) (ch : ℕ)
    (steps : List TrackerStep) :
    ∀ (idx : ℕ) (lt : ℤ),
      openAfter ∅ (buildStepsEvents c DRUMS ch steps idx lt []).1 = ∅ ∧
      (buildStepsEvents c DRUMS ch steps idx lt []).2.2 = [] := by
  induction steps with
  | nil =>
    intro idx lt
    exact ⟨rfl, rfl⟩
  | cons step rest ih =>
    intro idx lt
    by_cases hskip : (step.isRest || step.isTie || step.notes.length == 0) = true
    · simp only [buildStepsEvents, hskip, eq_self_iff_true, if_true]
      exact ih _ _
    · have hskip' : (step.isRest || step.isTie || step.notes.length == 0) = false := by
        simpa using hskip
      simp only [buildStepsEvents, hskip', eq_self_iff_true, if_true,
        Bool.false_eq_true, if_false]
      have hmm : List.map (fun n => MidiEvtKind.noteOff ch n.pitch) step.notes
          = (step.notes.map NoteEvent.pitch).map (fun p => MidiEvtKind.noteOff ch p) := by
        simp [List.map_map]
      constructor
      · rw [openAfter_append, openAfter_append, openAfter_onGroup,
          Finset.empty_union, hmm, openAfter_offGroup, Finset.sdiff_self]
        exact (ih _ _).1
      · exact (ih _ _).2

/-- `buildInstrumentTrack` unfolded into its five segments. -/
theorem buildInstrumentTrack_eq (c : RuntimeConfig) (ins : InstrumentName)
    (track : ParsedTrack) :
    buildInstrumentTrack c ins track =
      [⟨0, MidiEvtKind.trackName⟩] ++
      (if ins = DRUMS then []
        else [⟨0, MidiEvtKind.programChange (c.channels ins) (c.gmPrograms ins)⟩]) ++
      (buildStepsEvents c ins (c.channels ins) track.steps 0 0 []).1 ++
      (emitGroup (buildStepsEvents c ins (c.channels ins) track.steps 0 0 []).2.1
        (stepTick c (totalSteps c))
        ((buildStepsEvents c ins (c.channels ins) track.steps 0 0 []).2.2.map
          (fun p => MidiEvtKind.noteOff (c.channels ins) p))).1 ++
      [⟨0, MidiEvtKind.endOfTrack⟩] := rfl

/-- Every note-on in a built instrument track is eventually closed: the open
set after the whole track is empty. -/
theorem openAfter_buildInstrumentTrack (c : RuntimeConfig)
    (ins : InstrumentName) (track : ParsedTrack) :
    openAfter ∅ (buildInstrumentTrack c ins track) = ∅ := by
  rw [buildInstrumentTrack_eq,
    openAfter_append, openAfter_append, openAfter_append, openAfter_append]
  have hname : openAfter (∅ : Finset (ℕ × ℕ)) [(⟨0, MidiEvtKind.trackName⟩ : MidiEvt)] = ∅ := rfl
  rw [hname]
  by_cases hinst : ins = DRUMS
  · rw [if_pos hinst]
    rw [openAfter_nil]
    subst hinst
    have hbody := openAfter_buildSteps_drums c (c.channels DRUMS) track.steps 0 0
    rw [hbody.1, hbody.2]
    rfl
  · rw [if_neg hinst]
    have hprog : openAfter (∅ : Finset (ℕ × ℕ))
        [(⟨0, MidiEvtKind.programChange (c.channels ins) (c.gmPrograms ins)⟩ : MidiEvt)] = ∅ := rfl
    rw [hprog]
    have hbody := openAfter_buildSteps_melodic c ins (c.channels ins) hinst track.steps 0 0 []
    have hzero : (∅ : Finset (ℕ × ℕ)) = keySet (c.channels ins) [] := rfl
    rw [hzero, hbody, openAfter_offGroup, Finset.sdiff_self]
    rfl

theorem buildInstrumentTrack_getLast? (c : RuntimeConfig) (ins : InstrumentName)
    (track : ParsedTrack) :
    (buildInstrumentTrack c ins track).getLast? = some ⟨0, MidiEvtKind.endOfTrack⟩ := by
  rw [buildInstrumentTrack_eq]
  exact List.getLast?_concat _

/-- C3: every note-on event in a produced instrument track chunk is followed,
at an equal or later absolute tick within the same chunk and strictly before
the end-of-track meta event, by a note-off on the same channel and pitch;
this covers melodic tracks (ties and notes still active after the last step
are closed at the final tick) and the DRUMS one-shot pattern. -/
theorem smf_noteOn_has_matching_noteOff (c : RuntimeConfig)
    (ins : InstrumentName) (track : ParsedTrack)
    (l1 l2 : List MidiEvt) (e : MidiEvt) (ch p v : ℕ)
    (hsplit : buildInstrumentTrack c ins track = l1 ++ e :: l2)
    (hkind : e.kind = MidiEvtKind.noteOn ch p v) :
    ∃ pre e2 post, l2 = pre ++ e2 :: post ∧
      e2.kind = MidiEvtKind.noteOff ch p ∧ post ≠ [] ∧
      absTick (l1 ++ [e]) ≤ absTick (l1 ++ [e] ++ pre ++ [e2]) := by
  have hopen : openAfter ∅ (l1 ++ e :: l2) = ∅ := by
    rw [← hsplit]
    exact openAfter_buildInstrumentTrack c ins track
  rw [openAfter_append, openAfter_cons] at hopen
  have hmem : (ch, p) ∈ openKind (openAfter ∅ l1) e.kind := by
    rw [hkind]
    exact Finset.mem_insert_self _ _
  have hgone : (ch, p) ∉ openAfter (openKind (openAfter ∅ l1) e.kind) l2 := by
    rw [hopen]
    exact Finset.not_mem_empty _
  obtain ⟨e2, he2mem, he2kind⟩ := off_mem_of_open_gone (ch, p) l2 _ hmem hgone
  obtain ⟨pre, post, hps⟩ := List.append_of_mem he2mem
  refine ⟨pre, e2, post, hps, he2kind, ?_, ?_⟩
  · intro hpost
    have hlast := buildInstrumentTrack_getLast? c ins track
    rw [hsplit, hps, hpost] at hlast
    have h2 : (l1 ++ e :: (pre ++ e2 :: [])).getLast? = some e2 := by
      rw [show l1 ++ e :: (pre ++ e2 :: []) = (l1 ++ e :: pre) ++ [e2] by simp]
      exact List.getLast?_concat _
    rw [h2] at hlast
    have he2 : e2 = ⟨0, MidiEvtKind.endOfTrack⟩ := by
      simpa using hlast
    rw [he2] at he2kind
    simp at he2kind
  · simp only [absTick, List.map_append, List.sum_append]
    omega

/-- Witness for C3 at a concrete track: one BASS note C2:80 under the default
config; the note-on at tick 0 is closed by the note-off at tick 3840 before
the end-of-track. -/
theorem smf_noteOn_has_matching_noteOff_witness :
    ∃ pre e2 post,
      ([⟨3840, MidiEvtKind.noteOff 0 36⟩, ⟨0, MidiEvtKind.endOfTrack⟩] : List MidiEvt)
        = pre ++ e2 :: post ∧
      e2.kind = MidiEvtKind.noteOff 0 36 ∧ post ≠ [] ∧
      absTick ([⟨0, MidiEvtKind.trackName⟩, ⟨0, MidiEvtKind.programChange 0 32⟩]
          ++ [⟨0, MidiEvtKind.noteOn 0 36 80⟩])
        ≤ absTick ([⟨0, MidiEvtKind.trackName⟩, ⟨0, MidiEvtKind.programChange 0 32⟩]
          ++ [⟨0, MidiEvtKind.noteOn 0 36 80⟩] ++ pre ++ [e2]) :=
  smf_noteOn_has_matching_noteOff DEFAULT_CONFIG InstrumentName.BASS
    ⟨InstrumentName.BASS, [⟨[⟨36, 80⟩], false, false⟩]⟩
    [⟨0, MidiEvtKind.trackName⟩, ⟨0, MidiEvtKind.programChange 0 32⟩]
    [⟨3840, MidiEvtKind.noteOff 0 36⟩, ⟨0, MidiEvtKind.endOfTrack⟩]
    ⟨0, MidiEvtKind.noteOn 0 36 80⟩ 0 36 80 rfl rfl

/-! ### Stream parser lemmas (C4, C5, C6, C10) -/

theorem splitOnChar_ne_nil (sep : Char) (s : Str) : splitOnChar sep s ≠ [] := by
  induction s with
  | nil => simp [splitOnChar]
  | cons c rest ih =>
    rw [splitOnChar]
    by_cases hc : c = sep
    · simp [hc]
    · rw [if_neg hc]
      cases hsp : splitOnChar sep rest <;> simp

theorem splitOnChar_not_mem (sep : Char) (s : Str) :
    ∀ seg ∈ splitOnChar sep s, sep ∉ seg := by
  induction s with
  | nil =>
    intro seg hseg
    rw [splitOnChar] at hseg
    rcases List.mem_singleton.mp hseg with rfl
    simp
  | cons c rest ih =>
    intro seg hseg
    rw [splitOnChar] at hseg
    by_cases hc : c = sep
    · rw [if_pos hc] at hseg
      rcases List.mem_cons.mp hseg with h | h
      · subst h
        simp
      · exact ih seg h
    · rw [if_neg hc] at hseg
      cases hsp : splitOnChar sep rest with
      | nil => exact absurd hsp (splitOnChar_ne_nil sep rest)
      | cons l ls =>
        rw [hsp] at hseg
        rcases List.mem_cons.mp hseg with h | h
        · subst h
          intro hmem
          rcases List.mem_cons.mp hmem with h1 | h1
          · exact hc h1.symm
          · exact ih l (by rw [hsp]; exact List.mem_cons_self l ls) h1
        · exact ih seg (by rw [hsp]; exact List.mem_cons_of_mem l h)

theorem getLastD_irrel {α : Type} (v : List α) (hv : v ≠ []) (d1 d2 : α) :
    v.getLastD d1 = v.getLastD d2 := by
  cases v with
  | nil => exact absurd rfl hv
  | cons b w => rfl

/-- If a string contains no separator, it splits into itself alone. -/
theorem splitOnChar_eq_self (sep : Char) (s : Str) (h : sep ∉ s) :
    splitOnChar sep s = [s] := by
  induction s with
  | nil => rfl
  | cons c rest ih =>
    have hcs : ¬ c = sep := by
      intro hc
      subst hc
      exact h (List.mem_cons_self c rest)
    rw [splitOnChar, if_neg hcs]
    rw [ih (fun hm => h (List.mem_cons_of_mem c hm))]

theorem splitOnChar_append (sep : Char) (x y : Str) :
    splitOnChar sep (x ++ y) =
      (splitOnChar sep x).dropLast ++
        (((splitOnChar sep x).getLastD [] ++ (splitOnChar sep y).headD []) ::
          (splitOnChar sep y).tail) := by
  induction x with
  | nil =>
    rw [List.nil_append]
    cases hsp : splitOnChar sep y with
    | nil => exact absurd hsp (splitOnChar_ne_nil sep y)
    | cons l ls => simp [splitOnChar]
  | cons c x' ih =>
    rw [List.cons_append]
    by_cases hc : c = sep
    · rw [splitOnChar, if_pos hc]
      conv_rhs => rw [splitOnChar, if_pos hc]
      cases hsp : splitOnChar sep x' with
      | nil => exact absurd hsp (splitOnChar_ne_nil sep x')
      | cons m ms =>
        rw [hsp] at ih
        rw [ih]
        simp [List.getLastD_cons]
    · rw [splitOnChar, if_neg hc]
      conv_rhs => rw [splitOnChar, if_neg hc]
      cases hxy : splitOnChar sep (x' ++ y) with
      | nil => exact absurd hxy (splitOnChar_ne_nil sep (x' ++ y))
      | cons l ls =>
        rw [hxy] at ih
        cases hsp : splitOnChar sep x' with
        | nil => exact absurd hsp (splitOnChar_ne_nil sep x')
        | cons m ms =>
          rw [hsp] at ih
          cases ms with
          | nil =>
            have hdl : ([m] : List Str).dropLast = [] := rfl
            have hgl : ([m] : List Str).getLastD [] = m := rfl
            rw [hdl, hgl, List.nil_append] at ih
            obtain ⟨hl, hls⟩ := List.cons_eq_cons.mp ih
            have hdl2 : ([c :: m] : List Str).dropLast = [] := rfl
            have hgl2 : ([c :: m] : List Str).getLastD [] = c :: m := rfl
            rw [hl, hls, hdl2, hgl2, List.nil_append, List.cons_append]
          | cons m2 ms2 =>
            have hdrop : (m :: m2 :: ms2).dropLast = m :: (m2 :: ms2).dropLast := rfl
            have hlast : (m :: m2 :: ms2).getLastD ([] : Str)
                = (m2 :: ms2).getLastD [] := by
              rw [List.getLastD_cons]
              exact getLastD_irrel _ (by simp) _ _
            rw [hdrop, hlast, List.cons_append] at ih
            obtain ⟨hl, hls⟩ := List.cons_eq_cons.mp ih
            have hdrop2 : ((c :: m) :: m2 :: ms2).dropLast
                = (c :: m) :: (m2 :: ms2).dropLast := rfl
            have hlast2 : ((c :: m) :: m2 :: ms2).getLastD ([] : Str)
                = (m2 :: ms2).getLastD [] := by
              rw [List.getLastD_cons]
              exact getLastD_irrel _ (by simp) _ _
            rw [hl, hls, hdrop2, hlast2, List.cons_append]

theorem dropLast_append_ne_nil {α : Type} (u : List α) {v : List α} (hv : v ≠ []) :
    (u ++ v).dropLast = u ++ v.dropLast := by
  induction u with
  | nil => rfl
  | cons a u ih =>
    rw [List.cons_append]
    cases huv : u ++ v with
    | nil => exact absurd (List.append_eq_nil.mp huv).2 hv
    | cons b w =>
      rw [show ((a :: b :: w).dropLast : List α) = a :: (b :: w).dropLast from rfl,
        ← huv, ih, List.cons_append]

theorem getLastD_append_ne_nil {α : Type} (u : List α) {v : List α} (hv : v ≠ [])
    (d : α) : (u ++ v).getLastD d = v.getLastD d := by
  induction u generalizing d with
  | nil => rfl
  | cons a u ih =>
    rw [List.cons_append, List.getLastD_cons, ih]
    exact getLastD_irrel v hv _ _

theorem getLastD_mem {α : Type} : ∀ (l : List α) (d : α), l ≠ [] → l.getLastD d ∈ l
  | [a], d, _ => by
    rw [List.getLastD_cons]
    exact List.mem_singleton.mpr rfl
  | a :: b :: w, d, _ => by
    rw [List.getLastD_cons]
    exact List.mem_cons_of_mem a (getLastD_mem (b :: w) a (by simp))

theorem processTrimmed_comment (s : ParserState) (t : Str)
    (h1 : t.headD ' ' = '#') : processTrimmed s t = (s, []) := by
  unfold processTrimmed
  rw [if_pos h1]

theorem processTrimmed_header (s : ParserState) (t : Str) (inst : InstrumentName)
    (h1 : ¬ t.headD ' ' = '#') (h2 : headerOf t = some inst) :
    processTrimmed s t = ({ s with currentInstrument := some inst }, []) := by
  unfold processTrimmed
  rw [if_neg h1, h2]

theorem processTrimmed_noInst (s : ParserState) (t : Str)
    (h1 : ¬ t.headD ' ' = '#') (h2 : headerOf t = none)
    (h3 : s.currentInstrument = none) : processTrimmed s t = (s, []) := by
  unfold processTrimmed
  rw [if_neg h1, h2, h3]

theorem processTrimmed_cap (s : ParserState) (t : Str) (inst : InstrumentName)
    (h1 : ¬ t.headD ' ' = '#') (h2 : headerOf t = none)
    (h3 : s.currentInstrument = some inst)
    (h4 : s.currentStepCounts inst ≥ s.totalStepsExpected) :
    processTrimmed s t = (s, []) := by
  unfold processTrimmed
  rw [if_neg h1, h2, h3]
  dsimp only
  rw [if_pos h4]

theorem processTrimmed_malformed (s : ParserState) (t : Str) (inst : InstrumentName)
    (h1 : ¬ t.headD ' ' = '#') (h2 : headerOf t = none)
    (h3 : s.currentInstrument = some inst)
    (h4 : ¬ s.currentStepCounts inst ≥ s.totalStepsExpected)
    (h5 : parseNoteEntry (stripLineNumber t) = none) :
    processTrimmed s t = (s, []) := by
  unfold processTrimmed
  rw [if_neg h1, h2, h3]
  dsimp only
  rw [if_neg h4, h5]

theorem processTrimmed_accept (s : ParserState) (t : Str) (inst : InstrumentName)
    (parsed : ParsedNoteEntry)
    (h1 : ¬ t.headD ' ' = '#') (h2 : headerOf t = none)
    (h3 : s.currentInstrument = some inst)
    (h4 : ¬ s.currentStepCounts inst ≥ s.totalStepsExpected)
    (h5 : parseNoteEntry (stripLineNumber t) = some parsed) :
    processTrimmed s t =
      ({ s with
          currentStepCounts := updFn s.currentStepCounts inst
            (s.currentStepCounts inst + 1),
          sections := updFn s.sections inst (s.sections inst ++
            [⟨⟨parsed.notes, parsed.notes.length == 0 && !parsed.isTie, parsed.isTie⟩,
              s.currentStepCounts inst, t⟩]) },
        [⟨inst, s.currentStepCounts inst,
          ⟨parsed.notes, parsed.notes.length == 0 && !parsed.isTie, parsed.isTie⟩,
          t⟩]) := by
  unfold processTrimmed
  rw [if_neg h1, h2, h3]
  dsimp only
  rw [if_neg h4, h5]

theorem processLine_empty (s : ParserState) (line : Str)
    (h : trimStr line = []) : processLine s line = (s, []) := by
  unfold processLine
  rw [if_pos h]

theorem processLine_ne (s : ParserState) (line : Str) (h : ¬ trimStr line = []) :
    processLine s line
      = processTrimmed { s with rawLines := s.rawLines ++ [trimStr line] }
          (trimStr line) := by
  unfold processLine
  rw [if_neg h]

theorem parseNotePart_bad (p : Str) (hne : p ≠ [])
    (hdig : (((splitOnChar ':' p).drop 1).headD []).filter Char.isDigit = []) :
    parseNotePart p = none := by
  unfold parseNotePart
  rw [if_neg hne]
  by_cases hv : ((splitOnChar ':' p).drop 1).headD [] = []
  · rw [if_pos hv]
  · rw [if_neg hv, if_pos hdig]

theorem parseParts_bad (parts : List Str) (part : Str) (hmem : part ∈ parts)
    (hne : trimStr part ≠ [])
    (hdig : (((splitOnChar ':' (trimStr part)).drop 1).headD
        []).filter Char.isDigit = []) :
    parseParts parts = none := by
  induction parts with
  | nil => cases hmem
  | cons hd tl ih =>
    cases hmem with
    | head =>
      unfold parseParts
      rw [parseNotePart_bad (trimStr part) hne hdig]
    | tail _ hmem2 =>
      unfold parseParts
      cases hpn : parseNotePart (trimStr hd) with
      | none => rfl
      | some o =>
        cases o with
        | none => exact ih hmem2
        | some ev => rw [ih hmem2]; rfl

theorem parseNoteEntry_malformed (body : Str) (h : MalformedBody body) :
    parseNoteEntry body = none := by
  obtain ⟨h1, h2, h3, part, hmem, hne, hdig⟩ := h
  unfold parseNoteEntry
  rw [if_neg (fun hc => hc.elim h1 h2), if_neg h3,
    parseParts_bad (splitOnChar ',' (cleanEntry body)) part hmem hne hdig]

theorem processTrimmed_partialLine (s : ParserState) (t : Str) :
    (processTrimmed s t).1.partialLine = s.partialLine := by
  by_cases h1 : t.headD ' ' = '#'
  · rw [processTrimmed_comment s t h1]
  · cases h2 : headerOf t with
    | some inst => rw [processTrimmed_header s t inst h1 h2]
    | none =>
      cases h3 : s.currentInstrument with
      | none => rw [processTrimmed_noInst s t h1 h2 h3]
      | some inst =>
        by_cases h4 : s.currentStepCounts inst ≥ s.totalStepsExpected
        · rw [processTrimmed_cap s t inst h1 h2 h3 h4]
        · cases h5 : parseNoteEntry (stripLineNumber t) with
          | none => rw [processTrimmed_malformed s t inst h1 h2 h3 h4 h5]
          | some parsed => rw [processTrimmed_accept s t inst parsed h1 h2 h3 h4 h5]

theorem processLine_partialLine (s : ParserState) (line : Str) :
    (processLine s line).1.partialLine = s.partialLine := by
  by_cases h : trimStr line = []
  · rw [processLine_empty s line h]
  · rw [processLine_ne s line h]
    exact processTrimmed_partialLine _ _

theorem setPartial_partialLine (s : ParserState) (p : Str) :
    (setPartial s p).partialLine = p := rfl

theorem setPartial_setPartial (s : ParserState) (p q : Str) :
    setPartial (setPartial s p) q = setPartial s q := rfl

theorem processTrimmed_partial_irrel (s : ParserState) (p : Str) (t : Str) :
    processTrimmed (setPartial s p) t
      = (setPartial (processTrimmed s t).1 p, (processTrimmed s t).2) := by
  by_cases h1 : t.headD ' ' = '#'
  · rw [processTrimmed_comment s t h1,
      processTrimmed_comment (setPartial s p) t h1]
  · cases h2 : headerOf t with
    | some inst =>
      rw [processTrimmed_header s t inst h1 h2,
        processTrimmed_header (setPartial s p) t inst h1 h2]
      rfl
    | none =>
      cases h3 : s.currentInstrument with
      | none =>
        rw [processTrimmed_noInst s t h1 h2 h3,
          processTrimmed_noInst (setPartial s p) t h1 h2 h3]
      | some inst =>
        by_cases h4 : s.currentStepCounts inst ≥ s.totalStepsExpected
        · rw [processTrimmed_cap s t inst h1 h2 h3 h4,
            processTrimmed_cap (setPartial s p) t inst h1 h2 h3 h4]
        · cases h5 : parseNoteEntry (stripLineNumber t) with
          | none =>
            rw [processTrimmed_malformed s t inst h1 h2 h3 h4 h5,
              processTrimmed_malformed (setPartial s p) t inst h1 h2 h3 h4 h5]
          | some parsed =>
            rw [processTrimmed_accept s t inst parsed h1 h2 h3 h4 h5,
              processTrimmed_accept (setPartial s p) t inst parsed h1 h2 h3 h4 h5]
            rfl

theorem processLine_partial_irrel (s : ParserState) (p : Str) (line : Str) :
    processLine (setPartial s p) line
      = (setPartial (processLine s line).1 p, (processLine s line).2) := by
  by_cases h : trimStr line = []
  · rw [processLine_empty s line h, processLine_empty (setPartial s p) line h]
  · rw [processLine_ne s line h, processLine_ne (setPartial s p) line h]
    exact processTrimmed_partial_irrel
      { s with rawLines := s.rawLines ++ [trimStr line] } p (trimStr line)

theorem processLines_partialLine (lines : List Str) :
    ∀ s : ParserState, (processLines s lines).1.partialLine = s.partialLine := by
  induction lines with
  | nil => intro s; rfl
  | cons line rest ih =>
    intro s
    show (processLines (processLine s line).1 rest).1.partialLine = _
    rw [ih, processLine_partialLine]

theorem processLines_partial_irrel (lines : List Str) :
    ∀ (s : ParserState) (p : Str),
      processLines (setPartial s p) lines
        = (setPartial (processLines s lines).1 p, (processLines s lines).2) := by
  induction lines with
  | nil => intro s p; rfl
  | cons line rest ih =>
    intro s p
    show ((processLines (processLine (setPartial s p) line).1 rest).1,
        (processLine (setPartial s p) line).2
          ++ (processLines (processLine (setPartial s p) line).1 rest).2) = _
    rw [processLine_partial_irrel]
    dsimp only
    rw [ih]
    rfl

theorem processLines_append (L1 L2 : List Str) :
    ∀ s : ParserState,
      processLines s (L1 ++ L2)
        = ((processLines (processLines s L1).1 L2).1,
           (processLines s L1).2 ++ (processLines (processLines s L1).1 L2).2) := by
  induction L1 with
  | nil => intro s; rfl
  | cons line rest ih =>
    intro s
    rw [List.cons_append]
    show ((processLines (processLine s line).1 (rest ++ L2)).1,
        (processLine s line).2 ++ (processLines (processLine s line).1 (rest ++ L2)).2)
      = _
    rw [ih]
    show (_, (processLine s line).2 ++ (_ ++ _)) = _
    rw [← List.append_assoc]
    rfl

theorem appendChunk_eq (s : ParserState) (chunk : Str) :
    appendChunk s chunk
      = processLines
          (setPartial s ((splitOnChar '\n' (s.partialLine ++ stripCR chunk)).getLastD []))
          (splitOnChar '\n' (s.partialLine ++ stripCR chunk)).dropLast := rfl

theorem appendChunk_append (s : ParserState) (a b : Str) :
    appendChunk s (a ++ b)
      = ((appendChunk (appendChunk s a).1 b).1,
         (appendChunk s a).2 ++ (appendChunk (appendChunk s a).1 b).2) := by
  have hcr : stripCR (a ++ b) = stripCR a ++ stripCR b := by
    simp [stripCR, List.filter_append]
  have hAne := splitOnChar_ne_nil '\n' (s.partialLine ++ stripCR a)
  have hnl : '\n' ∉ (splitOnChar '\n' (s.partialLine ++ stripCR a)).getLastD [] :=
    splitOnChar_not_mem '\n' _ _ (getLastD_mem _ [] hAne)
  have hLB : splitOnChar '\n'
        ((splitOnChar '\n' (s.partialLine ++ stripCR a)).getLastD [] ++ stripCR b)
      = ((splitOnChar '\n' (s.partialLine ++ stripCR a)).getLastD []
          ++ (splitOnChar '\n' (stripCR b)).headD [])
        :: (splitOnChar '\n' (stripCR b)).tail := by
    rw [splitOnChar_append, splitOnChar_eq_self '\n' _ hnl]
    rfl
  have hlines : splitOnChar '\n' (s.partialLine ++ stripCR (a ++ b))
      = (splitOnChar '\n' (s.partialLine ++ stripCR a)).dropLast ++
          (((splitOnChar '\n' (s.partialLine ++ stripCR a)).getLastD []
            ++ (splitOnChar '\n' (stripCR b)).headD [])
          :: (splitOnChar '\n' (stripCR b)).tail) := by
    rw [hcr, ← List.append_assoc, splitOnChar_append]
  rw [appendChunk_eq s (a ++ b), hlines,
    getLastD_append_ne_nil _ (List.cons_ne_nil _ _),
    dropLast_append_ne_nil _ (List.cons_ne_nil _ _),
    processLines_append, processLines_partial_irrel]
  dsimp only
  rw [processLines_partial_irrel]
  rw [appendChunk_eq s a, processLines_partial_irrel]
  dsimp only
  rw [appendChunk_eq (setPartial (processLines s
      (splitOnChar '\n' (s.partialLine ++ stripCR a)).dropLast).1
      ((splitOnChar '\n' (s.partialLine ++ stripCR a)).getLastD []))]
  rw [setPartial_partialLine, hLB, setPartial_setPartial,
    processLines_partial_irrel]

theorem appendChunk_partialLine (s : ParserState) (chunk : Str) :
    (appendChunk s chunk).1.partialLine
      = (splitOnChar '\n' (s.partialLine ++ stripCR chunk)).getLastD [] := by
  rw [appendChunk_eq, processLines_partialLine, setPartial_partialLine]

theorem appendChunk_no_nl (s : ParserState) (chunk : Str) :
    '\n' ∉ (appendChunk s chunk).1.partialLine := by
  rw [appendChunk_partialLine]
  exact splitOnChar_not_mem '\n' _ _
    (getLastD_mem _ [] (splitOnChar_ne_nil '\n' _))

theorem appendChunk_nil (s : ParserState) (h : '\n' ∉ s.partialLine) :
    appendChunk s [] = (s, []) := by
  rw [appendChunk_eq]
  rw [show stripCR [] = [] from rfl, List.append_nil,
    splitOnChar_eq_self '\n' _ h]
  show processLines (setPartial s s.partialLine) [] = (s, [])
  rfl

theorem foldAppend_eq (chunks : List Str) :
    ∀ (s : ParserState) (evs : List TrackerLineEvent), '\n' ∉ s.partialLine →
      chunks.foldl (fun acc chunk =>
          let r := appendChunk acc.1 chunk
          (r.1, acc.2 ++ r.2)) (s, evs)
        = ((appendChunk s chunks.flatten).1,
            evs ++ (appendChunk s chunks.flatten).2) := by
  induction chunks with
  | nil =>
    intro s evs hs
    rw [List.foldl_nil, List.flatten_nil, appendChunk_nil s hs]
    simp
  | cons c rest ih =>
    intro s evs hs
    rw [List.foldl_cons]
    show rest.foldl _ ((appendChunk s c).1, evs ++ (appendChunk s c).2) = _
    rw [ih (appendChunk s c).1 (evs ++ (appendChunk s c).2) (appendChunk_no_nl s c),
      List.flatten_cons, appendChunk_append s c rest.flatten]
    dsimp only
    rw [List.append_assoc]

theorem runChunks_eq (s : ParserState) (chunks : List Str) :
    runChunks s chunks
      = ((finalize (chunks.foldl (fun acc chunk =>
            let r := appendChunk acc.1 chunk
            (r.1, acc.2 ++ r.2)) (s, [])).1).1,
         (chunks.foldl (fun acc chunk =>
            let r := appendChunk acc.1 chunk
            (r.1, acc.2 ++ r.2)) (s, [])).2
           ++ (finalize (chunks.foldl (fun acc chunk =>
            let r := appendChunk acc.1 chunk
            (r.1, acc.2 ++ r.2)) (s, [])).1).2) := rfl

/-- C6: feeding any partition of a text to `appendChunk` chunk by chunk and
then calling `finalize` produces exactly the same parser state and the same
sequence of `TrackerLineEvent`s — same instruments, step indices, steps and
lines, in the same order — as feeding the whole text as one chunk; in
particular a line split across a chunk boundary is parsed exactly once. -/
theorem parser_chunking_invariance (config : RuntimeConfig) (chunks : List Str) :
    runChunks (initParser config) chunks
      = runChunks (initParser config) [chunks.flatten] := by
  rw [runChunks_eq, runChunks_eq,
    foldAppend_eq chunks (initParser config) [] (by simp [initParser]),
    foldAppend_eq [chunks.flatten] (initParser config) [] (by simp [initParser]),
    show ([chunks.flatten] : List Str).flatten = chunks.flatten from by simp]

theorem updFn_same {α : Type} (f : InstrumentName → α) (i : InstrumentName)
    (v : α) : updFn f i v i = v := by
  simp [updFn]

theorem updFn_other {α : Type} (f : InstrumentName → α) (i : InstrumentName)
    (v : α) (j : InstrumentName) (h : ¬ j = i) : updFn f i v j = f j := by
  simp [updFn, h]

theorem processTrimmed_inv (config : RuntimeConfig) (s : ParserState)
    (evs : List TrackerLineEvent) (t : Str) (inv : ParserInv config s evs)
    (ht : t ≠ []) :
    ParserInv config (processTrimmed s t).1 (evs ++ (processTrimmed s t).2) := by
  by_cases h1 : t.headD ' ' = '#'
  · rw [processTrimmed_comment s t h1, List.append_nil]
    exact inv
  · cases h2 : headerOf t with
    | some inst =>
      rw [processTrimmed_header s t inst h1 h2, List.append_nil]
      exact ⟨inv.total_eq, inv.counts_eq, inv.counts_le, inv.idx_eq,
        inv.sections_count, inv.sections_ok⟩
    | none =>
      cases h3 : s.currentInstrument with
      | none =>
        rw [processTrimmed_noInst s t h1 h2 h3, List.append_nil]
        exact inv
      | some inst =>
        by_cases h4 : s.currentStepCounts inst ≥ s.totalStepsExpected
        · rw [processTrimmed_cap s t inst h1 h2 h3 h4, List.append_nil]
          exact inv
        · cases h5 : parseNoteEntry (stripLineNumber t) with
          | none =>
            rw [processTrimmed_malformed s t inst h1 h2 h3 h4 h5, List.append_nil]
            exact inv
          | some parsed =>
            rw [processTrimmed_accept s t inst parsed h1 h2 h3 h4 h5]
            have hlt : s.currentStepCounts inst < totalSteps config := by
              rw [← inv.total_eq]
              omega
            refine ⟨inv.total_eq, ?_, ?_, ?_, ?_, ?_⟩
            · intro i
              by_cases hi : i = inst
              · subst hi
                simp only [updFn_same, List.filter_append, List.filter_cons,
                  List.filter_nil, beq_self_eq_true, if_true, List.length_append,
                  List.length_cons, List.length_nil, inv.counts_eq i]
              · have hne : ¬ inst = i := fun h => hi h.symm
                simp only [updFn_other _ _ _ _ hi, List.filter_append,
                  List.filter_cons, List.filter_nil, beq_iff_eq, hne, if_false,
                  List.append_nil, inv.counts_eq i]
            · intro i
              by_cases hi : i = inst
              · subst hi
                simp only [updFn_same]
                omega
              · simp only [updFn_other _ _ _ _ hi]
                exact inv.counts_le i
            · intro i
              by_cases hi : i = inst
              · subst hi
                simp only [updFn_same, List.filter_append, List.filter_cons,
                  List.filter_nil, beq_self_eq_true, if_true, List.map_append,
                  List.map_cons, List.map_nil, inv.idx_eq i, List.range_succ]
              · have hne : ¬ inst = i := fun h => hi h.symm
                simp only [updFn_other _ _ _ _ hi, List.filter_append,
                  List.filter_cons, List.filter_nil, beq_iff_eq, hne, if_false,
                  List.append_nil, inv.idx_eq i]
            · intro i
              by_cases hi : i = inst
              · subst hi
                simp only [updFn_same, List.length_append, List.length_cons,
                  List.length_nil, inv.sections_count i]
              · simp only [updFn_other _ _ _ _ hi]
                exact inv.sections_count i
            · intro i sec hsec
              by_cases hi : i = inst
              · subst hi
                simp only [updFn_same] at hsec
                rcases List.mem_append.mp hsec with hold | hnew
                · exact inv.sections_ok i sec hold
                · rcases List.mem_singleton.mp hnew with rfl
                  exact ⟨ht, h1, h2, by rw [h5]; rfl⟩
              · simp only [updFn_other _ _ _ _ hi] at hsec
                exact inv.sections_ok i sec hsec

theorem processLine_inv (config : RuntimeConfig) (s : ParserState)
    (evs : List TrackerLineEvent) (line : Str) (inv : ParserInv config s evs) :
    ParserInv config (processLine s line).1 (evs ++ (processLine s line).2) := by
  by_cases h : trimStr line = []
  · rw [processLine_empty s line h, List.append_nil]
    exact inv
  · rw [processLine_ne s line h]
    exact processTrimmed_inv config
      { s with rawLines := s.rawLines ++ [trimStr line] } evs (trimStr line)
      ⟨inv.total_eq, inv.counts_eq, inv.counts_le, inv.idx_eq,
        inv.sections_count, inv.sections_ok⟩ h

theorem processLines_inv (config : RuntimeConfig) (lines : List Str) :
    ∀ (s : ParserState) (evs : List TrackerLineEvent),
      ParserInv config s evs →
      ParserInv config (processLines s lines).1
        (evs ++ (processLines s lines).2) := by
  induction lines with
  | nil =>
    intro s evs inv
    rw [show processLines s [] = (s, []) from rfl, List.append_nil]
    exact inv
  | cons line rest ih =>
    intro s evs inv
    show ParserInv config (processLines (processLine s line).1 rest).1
      (evs ++ ((processLine s line).2 ++ (processLines (processLine s line).1 rest).2))
    rw [← List.append_assoc]
    exact ih (processLine s line).1 (evs ++ (processLine s line).2)
      (processLine_inv config s evs line inv)

theorem setPartial_inv (config : RuntimeConfig) (s : ParserState)
    (evs : List TrackerLineEvent) (p : Str) (inv : ParserInv config s evs) :
    ParserInv config (setPartial s p) evs :=
  ⟨inv.total_eq, inv.counts_eq, inv.counts_le, inv.idx_eq,
    inv.sections_count, inv.sections_ok⟩

theorem appendChunk_inv (config : RuntimeConfig) (s : ParserState)
    (evs : List TrackerLineEvent) (chunk : Str) (inv : ParserInv config s evs) :
    ParserInv config (appendChunk s chunk).1
      (evs ++ (appendChunk s chunk).2) := by
  rw [appendChunk_eq]
  exact processLines_inv config _ _ evs (setPartial_inv config s evs _ inv)

theorem finalize_inv (config : RuntimeConfig) (s : ParserState)
    (evs : List TrackerLineEvent) (inv : ParserInv config s evs) :
    ParserInv config (finalize s).1 (evs ++ (finalize s).2) := by
  unfold finalize
  by_cases h : s.partialLine = []
  · rw [if_pos h]
    rw [List.append_nil]
    exact inv
  · rw [if_neg h]
    dsimp only
    have hpl := processLine_inv config s evs s.partialLine inv
    exact ⟨hpl.total_eq, hpl.counts_eq, hpl.counts_le, hpl.idx_eq,
      hpl.sections_count, hpl.sections_ok⟩

theorem initParser_inv (config : RuntimeConfig) :
    ParserInv config (initParser config) [] := by
  refine ⟨rfl, ?_, ?_, ?_, ?_, ?_⟩ <;> intro i <;> simp [initParser]

theorem runChunks_inv (config : RuntimeConfig) (chunks : List Str) :
    ParserInv config (runChunks (initParser config) chunks).1
      (runChunks (initParser config) chunks).2 := by
  rw [runChunks_eq,
    foldAppend_eq chunks (initParser config) [] (by simp [initParser])]
  dsimp only
  have hac : ParserInv config (appendChunk (initParser config) chunks.flatten).1
      ([] ++ (appendChunk (initParser config) chunks.flatten).2) :=
    appendChunk_inv config (initParser config) [] chunks.flatten
      (initParser_inv config)
  rw [List.nil_append] at hac
  have := finalize_inv config (appendChunk (initParser config) chunks.flatten).1
    (appendChunk (initParser config) chunks.flatten).2 hac
  exact this

/-- C4: over any chunk sequence, the stream parser emits at most
`totalSteps(config)` events per instrument, and the `stepIndex` fields of one
instrument's events are exactly 0, 1, 2, … in emission order. -/
theorem parser_step_cap_and_consecutive_indices (config : RuntimeConfig)
    (chunks : List Str) (i : InstrumentName) :
    (((runChunks (initParser config) chunks).2.filter
        (fun e => e.instrument == i)).length ≤ totalSteps config) ∧
    (((runChunks (initParser config) chunks).2.filter
        (fun e => e.instrument == i)).map TrackerLineEvent.stepIndex
      = List.range (((runChunks (initParser config) chunks).2.filter
          (fun e => e.instrument == i)).length)) := by
  have inv := runChunks_inv config chunks
  constructor
  · rw [← inv.counts_eq i]
    exact inv.counts_le i
  · rw [← inv.counts_eq i]
    exact inv.idx_eq i

theorem processLine_accept (s : ParserState) (line2 : Str)
    (inst : InstrumentName) (pe : ParsedNoteEntry)
    (h1 : ¬ trimStr line2 = []) (h2 : ¬ (trimStr line2).headD ' ' = '#')
    (h3 : headerOf (trimStr line2) = none)
    (hinst : s.currentInstrument = some inst)
    (hcap : ¬ s.currentStepCounts inst ≥ s.totalStepsExpected)
    (h4 : parseNoteEntry (stripLineNumber (trimStr line2)) = some pe) :
    (processLine s line2).2
      = [⟨inst, s.currentStepCounts inst,
          ⟨pe.notes, pe.notes.length == 0 && !pe.isTie, pe.isTie⟩,
          trimStr line2⟩] := by
  rw [processLine_ne s line2 h1,
    processTrimmed_accept { s with rawLines := s.rawLines ++ [trimStr line2] }
      (trimStr line2) inst pe h2 h3 hinst hcap h4]

/-- C5: a body line whose part lacks a `:` separator or has no digits in its
velocity portion is skipped — the parser emits no event for it and leaves the
instrument's step count untouched (only `rawLines` records the text) — and
the next well-formed line for that instrument receives the step index the
malformed line would have had; parsing continues rather than aborting. -/
theorem parser_malformed_line_skipped
    (s : ParserState) (line line2 : Str) (inst : InstrumentName)
    (pe : ParsedNoteEntry)
    (hinst : s.currentInstrument = some inst)
    (hcap : ¬ s.currentStepCounts inst ≥ s.totalStepsExpected)
    (htrim : ¬ trimStr line = [])
    (hcomment : ¬ (trimStr line).headD ' ' = '#')
    (hheader : headerOf (trimStr line) = none)
    (hbad : MalformedBody (stripLineNumber (trimStr line)))
    (h1 : ¬ trimStr line2 = [])
    (h2 : ¬ (trimStr line2).headD ' ' = '#')
    (h3 : headerOf (trimStr line2) = none)
    (h4 : parseNoteEntry (stripLineNumber (trimStr line2)) = some pe) :
    processLine s line
        = ({ s with rawLines := s.rawLines ++ [trimStr line] }, []) ∧
    (processLine (processLine s line).1 line2).2
        = [⟨inst, s.currentStepCounts inst,
            ⟨pe.notes, pe.notes.length == 0 && !pe.isTie, pe.isTie⟩,
            trimStr line2⟩] := by
  have hml : parseNoteEntry (stripLineNumber (trimStr line)) = none :=
    parseNoteEntry_malformed _ hbad
  have hA : processLine s line
      = ({ s with rawLines := s.rawLines ++ [trimStr line] }, []) := by
    rw [processLine_ne s line htrim]
    exact processTrimmed_malformed _ _ inst hcomment hheader hinst hcap hml
  refine ⟨hA, ?_⟩
  have hkey : (processLine s line).1
      = { s with rawLines := s.rawLines ++ [trimStr line] } := by rw [hA]
  rw [hkey]
  exact processLine_accept _ line2 inst pe h1 h2 h3 hinst hcap h4

theorem parser_malformed_line_skipped_witness :
    MalformedBody (stripLineNumber
        (trimStr ['1', ' ', 'C', '2', ':', 'a', 'b', 'c'])) ∧
    (processLine bassHeaderState ['1', ' ', 'C', '2', ':', 'a', 'b', 'c']
        = ({ bassHeaderState with rawLines := bassHeaderState.rawLines
              ++ [trimStr ['1', ' ', 'C', '2', ':', 'a', 'b', 'c']] }, []) ∧
      (processLine
          (processLine bassHeaderState
            ['1', ' ', 'C', '2', ':', 'a', 'b', 'c']).1
          ['2', ' ', 'D', '2', ':', '8', '0']).2
        = [⟨InstrumentName.BASS,
            bassHeaderState.currentStepCounts InstrumentName.BASS,
            ⟨(⟨[⟨38, 80⟩], false⟩ : ParsedNoteEntry).notes,
              (⟨[⟨38, 80⟩], false⟩ : ParsedNoteEntry).notes.length == 0
                && !(⟨[⟨38, 80⟩], false⟩ : ParsedNoteEntry).isTie,
              (⟨[⟨38, 80⟩], false⟩ : ParsedNoteEntry).isTie⟩,
            trimStr ['2', ' ', 'D', '2', ':', '8', '0']⟩]) :=
  ⟨by unfold MalformedBody; decide,
    parser_malformed_line_skipped bassHeaderState
      ['1', ' ', 'C', '2', ':', 'a', 'b', 'c']
      ['2', ' ', 'D', '2', ':', '8', '0']
      InstrumentName.BASS ⟨[⟨38, 80⟩], false⟩
      (by decide) (by decide) (by decide) (by decide) (by decide)
      (by unfold MalformedBody; decide)
      (by decide) (by decide) (by decide) (by decide)⟩

theorem headerOf_instName (i : InstrumentName) : headerOf (instName i) = some i := by
  cases i <;> rfl

theorem count_header_lines_zero (i : InstrumentName) (ls : List Str)
    (h : ∀ l ∈ ls, headerOf l = none) : ls.count (instName i) = 0 := by
  rw [List.count_eq_zero]
  intro hmem
  have h2 := h _ hmem
  rw [headerOf_instName i] at h2
  exact Option.noConfusion h2

theorem rawTrackerParts_eq (s : ParserState) :
    rawTrackerParts s
      = [instName BASS] ++ (s.sections BASS).map SectionStep.line ++ [[]]
        ++ [instName DRUMS] ++ (s.sections DRUMS).map SectionStep.line ++ [[]]
        ++ [instName PIANO] ++ (s.sections PIANO).map SectionStep.line ++ [[]]
        ++ [instName SAX] ++ (s.sections SAX).map SectionStep.line ++ [[]] := by
  simp [rawTrackerParts, TRACKER_INSTRUMENTS]

/-- C10: the raw tracker archive built by `getRawTrackerText` is normalized:
the four instrument headers appear exactly once each, in the fixed order
BASS, DRUMS, PIANO, SAX regardless of the input's header order, and each
header is followed only by that instrument's accepted step lines (at most
`totalSteps` of them; comments, malformed lines and lines beyond the cap are
excluded), each block closed by a blank separator before the final trim. -/
theorem rawTracker_normalized (config : RuntimeConfig) (chunks : List Str) :
    getRawTrackerText (runChunks (initParser config) chunks).1
        = trimStr (joinWithNewline
            (rawTrackerParts (runChunks (initParser config) chunks).1)) ∧
    rawTrackerParts (runChunks (initParser config) chunks).1
      = [instName BASS]
        ++ ((runChunks (initParser config) chunks).1.sections BASS).map
            SectionStep.line ++ [[]]
        ++ [instName DRUMS]
        ++ ((runChunks (initParser config) chunks).1.sections DRUMS).map
            SectionStep.line ++ [[]]
        ++ [instName PIANO]
        ++ ((runChunks (initParser config) chunks).1.sections PIANO).map
            SectionStep.line ++ [[]]
        ++ [instName SAX]
        ++ ((runChunks (initParser config) chunks).1.sections SAX).map
            SectionStep.line ++ [[]] ∧
    (∀ i : InstrumentName,
      (((runChunks (initParser config) chunks).1.sections i).map
          SectionStep.line).length ≤ totalSteps config) ∧
    (∀ i : InstrumentName,
      ∀ l ∈ ((runChunks (initParser config) chunks).1.sections i).map
          SectionStep.line, LineOK l) ∧
    (∀ i : InstrumentName,
      (rawTrackerParts (runChunks (initParser config) chunks).1).count
          (instName i) = 1) := by
  have inv := runChunks_inv config chunks
  have hnone : ∀ j : InstrumentName,
      ∀ l ∈ ((runChunks (initParser config) chunks).1.sections j).map
        SectionStep.line, headerOf l = none := by
    intro j l hl
    obtain ⟨sec, hsec, rfl⟩ := List.mem_map.mp hl
    exact (inv.sections_ok j sec hsec).2.2.1
  refine ⟨rfl, rawTrackerParts_eq _, ?_, ?_, ?_⟩
  · intro i
    rw [List.length_map, inv.sections_count i]
    exact inv.counts_le i
  · intro i l hl
    obtain ⟨sec, hsec, rfl⟩ := List.mem_map.mp hl
    exact inv.sections_ok i sec hsec
  · intro i
    rw [rawTrackerParts_eq]
    simp only [List.count_append]
    rw [count_header_lines_zero i _ (hnone BASS),
      count_header_lines_zero i _ (hnone DRUMS),
      count_header_lines_zero i _ (hnone PIANO),
      count_header_lines_zero i _ (hnone SAX)]
    cases i <;> decide

/-- C7 (counterexample): two events whose times differ by less than EPSILON
are ordered by priority, so the drained callbacks run in strictly
*decreasing* time order at this input: the event at 10 + 1/20000 s runs
before the event at 10 s. -/
theorem scheduler_drain_order_counterexample :
    ((flushDrain 11 (runOps
        [SchedOp.sched (10 + 1/20000) 0, SchedOp.sched 10 1]).events).1.map
      InternalScheduledEvent.time) = [10 + 1/20000, 10] ∧
    ¬ ((10 + 1/20000 : ℚ) ≤ 10) := by
  have hcmp : cmpEvents ⟨10 + 1/20000, 0, 0, false⟩ ⟨10, 1, 1, false⟩ ≤ 0 := by
    unfold cmpEvents
    rw [if_neg (by
        rw [show (10 + 1/20000 : ℚ) - 10 = 1/20000 by norm_num,
          abs_of_pos (by norm_num)]
        norm_num [EPSILON]),
      if_pos (by norm_num : ((0 : ℤ) ≠ 1))]
    norm_num
  have hev : (runOps [SchedOp.sched (10 + 1/20000) 0, SchedOp.sched 10 1]).events
      = [⟨10 + 1/20000, 0, 0, false⟩, ⟨10, 1, 1, false⟩] := by
    simp only [runOps, List.foldl, applyOp, schedule, initScheduler,
      List.nil_append, List.cons_append, sortEvents, insertEvent]
    rw [if_pos hcmp]
  rw [hev, flushDrain_cons_live (by norm_num [EPSILON]) rfl,
    flushDrain_cons_live (by norm_num [EPSILON]) rfl]
  exact ⟨rfl, by norm_num⟩

/-! ### Soundfont section coordinator (C8) -/

theorem sectionDurationOf_pos (cfg : RuntimeConfig) (h : 0 < cfg.tempo) :
    0 < sectionDurationOf cfg := by
  have hbase : 0 < 60 / cfg.tempo / 4 :=
    div_pos (div_pos (by norm_num) h) (by norm_num)
  unfold sectionDurationOf
  by_cases h0 : stepStartSeconds cfg (totalSteps cfg) ≤ 0
  · rw [if_pos h0]
    exact lt_max_iff.mpr (Or.inl hbase)
  · rw [if_neg h0]
    exact lt_of_not_le h0

theorem soundfontPrepare_inv (cfg : RuntimeConfig) (now0 : ℚ)
    (h : 0 < cfg.tempo) : SoundfontInv (soundfontPrepare cfg now0) := by
  refine ⟨sectionDurationOf_pos cfg h, ⟨0, fun k => ?_⟩, ?_, fun i => ?_⟩
  · show (if k = 0 then some _ else none).isSome ↔ k ≤ 0
    by_cases hk : k = 0
    · simp [hk]
    · simp [hk, Nat.le_zero]
  · intro j k tj tk hjk hj hk
    have hk' : (if k = 0 then some (now0 + sectionDurationOf cfg
        * (SECTION_BUFFER : ℚ) + INITIAL_LOOKAHEAD) else none) = some tk := hk
    have hk0 : ¬ k = 0 := by omega
    rw [if_neg hk0] at hk'
    exact Option.noConfusion hk'
  · show (if (0 : ℕ) = 0 then some _ else none).isSome
    simp

theorem shiftedTimes_isSome (times : ℕ → Option ℚ) (sec : ℕ) (t0 shift : ℚ)
    (hsec : (times sec).isSome) (k : ℕ) :
    (shiftedTimes times sec t0 shift k).isSome = (times k).isSome := by
  unfold shiftedTimes
  by_cases hk : k = sec
  · subst hk
    simp [hsec]
  · rw [if_neg hk]
    by_cases hlt : sec < k
    · rw [if_pos hlt]
      exact Option.isSome_map ..
    · rw [if_neg hlt]

theorem shiftedTimes_mono (times : ℕ → Option ℚ) (sec : ℕ) (t0 shift : ℚ)
    (ht0 : times sec = some t0) (hshift : 0 < shift)
    (hmono : ∀ j k tj tk, j < k → times j = some tj → times k = some tk →
      tj < tk) :
    ∀ j k tj tk, j < k → shiftedTimes times sec t0 shift j = some tj →
      shiftedTimes times sec t0 shift k = some tk → tj < tk := by
  intro j k tj tk hjk hj hk
  unfold shiftedTimes at hj hk
  by_cases hjs : j = sec
  · subst hjs
    rw [if_pos rfl] at hj
    have htj : t0 + shift = tj := Option.some.inj hj
    rw [if_neg (by omega : ¬ k = j), if_pos hjk] at hk
    obtain ⟨tk0, htk0, htk⟩ := Option.map_eq_some'.mp hk
    have := hmono j k t0 tk0 hjk ht0 htk0
    rw [← htj, ← htk]
    linarith
  · rw [if_neg hjs] at hj
    by_cases hjl : sec < j
    · rw [if_pos hjl] at hj
      obtain ⟨tj0, htj0, htj⟩ := Option.map_eq_some'.mp hj
      rw [if_neg (by omega : ¬ k = sec), if_pos (by omega : sec < k)] at hk
      obtain ⟨tk0, htk0, htk⟩ := Option.map_eq_some'.mp hk
      have := hmono j k tj0 tk0 hjk htj0 htk0
      rw [← htj, ← htk]
      linarith
    · rw [if_neg hjl] at hj
      have hjlt : j < sec := by omega
      by_cases hks : k = sec
      · subst hks
        rw [if_pos rfl] at hk
        have htk : t0 + shift = tk := Option.some.inj hk
        have := hmono j k tj t0 hjlt hj ht0
        rw [← htk]
        linarith
      · rw [if_neg hks] at hk
        by_cases hkl : sec < k
        · rw [if_pos hkl] at hk
          obtain ⟨tk0, htk0, htk⟩ := Option.map_eq_some'.mp hk
          have := hmono j k tj tk0 hjk hj htk0
          rw [← htk]
          linarith
        · rw [if_neg hkl] at hk
          exact hmono j k tj tk hjk hj hk

theorem scheduleCombinedStep_inv (cfg : RuntimeConfig) (s : SoundfontState)
    (sec stepIndex : ℕ) (now : ℚ) (h : SoundfontInv s)
    (hsec : (s.sectionStartTimes sec).isSome) :
    SoundfontInv (scheduleCombinedStep cfg s sec stepIndex now) := by
  unfold scheduleCombinedStep
  by_cases hc : (s.sectionStartTimes sec).getD s.startTime
      + stepStartSeconds cfg stepIndex < now + SECTION_LOOKAHEAD
  · rw [if_pos hc]
    obtain ⟨t0, ht0⟩ := Option.isSome_iff_exists.mp hsec
    have hg : (s.sectionStartTimes sec).getD s.startTime = t0 := by
      rw [ht0]; rfl
    rw [hg] at hc ⊢
    have hpos : 0 < now + SECTION_LOOKAHEAD
        - (t0 + stepStartSeconds cfg stepIndex) := by linarith
    refine ⟨h.dur_pos, ?_, ?_, fun i => ?_⟩
    · obtain ⟨m, hm⟩ := h.dom
      refine ⟨m, fun k => ?_⟩
      show (shiftedTimes s.sectionStartTimes sec t0 _ k).isSome ↔ k ≤ m
      rw [shiftedTimes_isSome s.sectionStartTimes sec t0 _ hsec k]
      exact hm k
    · intro j k tj tk hjk hj hk
      exact shiftedTimes_mono s.sectionStartTimes sec t0 _ ht0 hpos h.mono
        j k tj tk hjk hj hk
    · show (shiftedTimes s.sectionStartTimes sec t0 _
        (s.instrumentSections i)).isSome
      rw [shiftedTimes_isSome s.sectionStartTimes sec t0 _ hsec]
      exact h.sect i
  · rw [if_neg hc]
    exact h

theorem assignedTimes_isSome (times : ℕ → Option ℚ) (ns : ℕ) (v : ℚ)
    (k : ℕ) :
    (assignedTimes times ns v k).isSome
      = (decide (k = ns) || (times k).isSome) := by
  unfold assignedTimes
  by_cases hk : k = ns
  · simp [hk]
  · simp [hk]

theorem assignSection_inv (s : SoundfontState) (i : InstrumentName) (now : ℚ)
    (h : SoundfontInv s) :
    SoundfontInv (assignSection (bumpSection s i)
      (s.instrumentSections i + 1) now) := by
  unfold assignSection bumpSection
  by_cases hhas : (s.sectionStartTimes (s.instrumentSections i + 1)).isSome
  · rw [if_pos hhas]
    refine ⟨h.dur_pos, h.dom, h.mono, fun j => ?_⟩
    show (s.sectionStartTimes
      (updFn s.instrumentSections i (s.instrumentSections i + 1) j)).isSome
    by_cases hj : j = i
    · subst hj
      rw [updFn_same]
      exact hhas
    · rw [updFn_other _ _ _ _ hj]
      exact h.sect j
  · rw [if_neg hhas]
    obtain ⟨m, hm⟩ := h.dom
    have hcm : s.instrumentSections i ≤ m := (hm _).mp (h.sect i)
    have hc1 : s.instrumentSections i + 1 = m + 1 := by
      have h2 : ¬ (s.instrumentSections i + 1 ≤ m) :=
        fun hle => hhas ((hm _).mpr hle)
      omega
    obtain ⟨tm, htm⟩ :=
      Option.isSome_iff_exists.mp ((hm m).mpr le_rfl)
    have hgd : (s.sectionStartTimes (s.instrumentSections i + 1 - 1)).getD
        s.startTime = tm := by
      rw [show s.instrumentSections i + 1 - 1 = m by omega, htm]
      rfl
    have hdom2 : ∀ k, (assignedTimes s.sectionStartTimes
        (s.instrumentSections i + 1)
        (max ((s.sectionStartTimes (s.instrumentSections i + 1 - 1)).getD
          s.startTime + s.sectionDuration) (now + SECTION_LOOKAHEAD))
        k).isSome ↔ k ≤ m + 1 := by
      intro k
      rw [assignedTimes_isSome]
      by_cases hk : k = s.instrumentSections i + 1
      · simp [hk]
        omega
      · simp [hk]
        rw [hm k]
        omega
    refine ⟨h.dur_pos, ⟨m + 1, hdom2⟩, ?_, fun j => ?_⟩
    · intro j k tj tk hjk hj hk
      have hj' : assignedTimes s.sectionStartTimes
          (s.instrumentSections i + 1) _ j = some tj := hj
      have hk' : assignedTimes s.sectionStartTimes
          (s.instrumentSections i + 1) _ k = some tk := hk
      unfold assignedTimes at hj' hk'
      by_cases hks : k = s.instrumentSections i + 1
      · rw [if_pos hks] at hk'
        have htk : max ((s.sectionStartTimes
            (s.instrumentSections i + 1 - 1)).getD s.startTime
            + s.sectionDuration) (now + SECTION_LOOKAHEAD) = tk :=
          Option.some.inj hk'
        rw [hgd] at htk
        have hjne : ¬ j = s.instrumentSections i + 1 := by omega
        rw [if_neg hjne] at hj'
        have hjm : j ≤ m := (hm j).mp (by rw [hj']; rfl)
        have htjtm : tj ≤ tm := by
          by_cases hjm' : j = m
          · subst hjm'
            rw [hj'] at htm
            exact le_of_eq (Option.some.inj htm)
          · exact le_of_lt (h.mono j m tj tm (by omega) hj' htm)
        have hdur := h.dur_pos
        have : tm + s.sectionDuration ≤ tk := htk ▸ le_max_left _ _
        linarith
      · rw [if_neg hks] at hk'
        have hkm : k ≤ m := (hm k).mp (by rw [hk']; rfl)
        have hjne : ¬ j = s.instrumentSections i + 1 := by omega
        rw [if_neg hjne] at hj'
        exact h.mono j k tj tk hjk hj' hk'
    · show (assignedTimes s.sectionStartTimes (s.instrumentSections i + 1) _
        (updFn s.instrumentSections i (s.instrumentSections i + 1) j)).isSome
      rw [show ((assignedTimes s.sectionStartTimes
          (s.instrumentSections i + 1) (max ((s.sectionStartTimes
            (s.instrumentSections i + 1 - 1)).getD s.startTime
            + s.sectionDuration) (now + SECTION_LOOKAHEAD))
          (updFn s.instrumentSections i (s.instrumentSections i + 1)
            j)).isSome) = True from eq_true ((hdom2 _).mpr ?_)]
      · trivial
      · by_cases hj : j = i
        · subst hj
          rw [updFn_same]
          omega
        · rw [updFn_other _ _ _ _ hj]
          have := (hm _).mp (h.sect j)
          omega

theorem sfLoop_inv (s : SoundfontState) (instrument : InstrumentName)
    (stepIndex : ℕ) (now : ℚ) (h : SoundfontInv s) :
    SoundfontInv (sfLoop s instrument stepIndex now) := by
  unfold sfLoop
  by_cases hcond : 0 ≤ s.lastStepIndices instrument
      ∧ (stepIndex : ℤ) < s.lastStepIndices instrument
  · rw [if_pos hcond]
    exact assignSection_inv s instrument now h
  · rw [if_neg hcond]
    exact h

theorem setLastStepIndex_inv (s : SoundfontState) (i : InstrumentName)
    (v : ℤ) (h : SoundfontInv s) : SoundfontInv (setLastStepIndex s i v) :=
  ⟨h.dur_pos, h.dom, h.mono, h.sect⟩

theorem setPendingCell_inv (s : SoundfontState) (sec stepIndex : ℕ)
    (cell : InstrumentName → Option TrackerStep) (h : SoundfontInv s) :
    SoundfontInv (setPendingCell s sec stepIndex cell) :=
  ⟨h.dur_pos, h.dom, h.mono, h.sect⟩

theorem bufferStep_inv (cfg : RuntimeConfig) (s : SoundfontState)
    (sec stepIndex : ℕ) (instrument : InstrumentName) (step : TrackerStep)
    (now : ℚ) (h : SoundfontInv s)
    (hsec : (s.sectionStartTimes sec).isSome) :
    SoundfontInv (bufferStep cfg s sec stepIndex instrument step now) := by
  unfold bufferStep
  by_cases hall : TRACKER_INSTRUMENTS.all (fun i =>
      (pendingCellAdd (s.pendingSections sec stepIndex) instrument step
        i).isSome)
  · rw [if_pos hall]
    exact scheduleCombinedStep_inv cfg _ sec stepIndex now
      (setPendingCell_inv s sec stepIndex _ h) hsec
  · rw [if_neg hall]
    exact setPendingCell_inv s sec stepIndex _ h

theorem enqueueStep_inv (cfg : RuntimeConfig) (s : SoundfontState)
    (instrument : InstrumentName) (stepIndex : ℕ) (step : TrackerStep)
    (now : ℚ) (h : SoundfontInv s) :
    SoundfontInv (enqueueStep cfg s instrument stepIndex step now) := by
  unfold enqueueStep
  have inv2 : SoundfontInv (setLastStepIndex
      (sfLoop s instrument stepIndex now) instrument stepIndex) :=
    setLastStepIndex_inv _ _ _ (sfLoop_inv s instrument stepIndex now h)
  exact bufferStep_inv cfg _ _ stepIndex instrument step now inv2
    (inv2.sect instrument)

theorem runSf_inv (cfg : RuntimeConfig) (ops : List SfOp)
    (s : SoundfontState) (h : SoundfontInv s) :
    SoundfontInv (runSf cfg s ops) := by
  induction ops generalizing s with
  | nil => exact h
  | cons op rest ih =>
    exact ih _ (enqueueStep_inv cfg s op.instrument op.stepIndex op.step
      op.now h)

/-- C8: across any run — `prepare` followed by any sequence of
`enqueueStep` calls at arbitrary audio-clock times — the soundfont
backend's `sectionStartTimes` map is strictly monotonic in the section
index: whenever two sections both have an assigned start time, the later
section starts strictly later.  This holds through both mutation sites:
the first assignment of a fresh section's start in `enqueueStep` and the
forward shift of a section and all later sections in
`scheduleCombinedStep`. -/
theorem soundfont_section_start_times_monotonic (cfg : RuntimeConfig)
    (now0 : ℚ) (ops : List SfOp) (h : 0 < cfg.tempo) :
    ∀ j k tj tk, j < k →
      (runSf cfg (soundfontPrepare cfg now0) ops).sectionStartTimes j
        = some tj →
      (runSf cfg (soundfontPrepare cfg now0) ops).sectionStartTimes k
        = some tk →
      tj < tk :=
  (runSf_inv cfg ops _ (soundfontPrepare_inv cfg now0 h)).mono

theorem soundfont_section_start_times_monotonic_witness :
    (0 : ℚ) < DEFAULT_CONFIG.tempo ∧
    (∀ j k tj tk, j < k →
      (runSf DEFAULT_CONFIG (soundfontPrepare DEFAULT_CONFIG 0)
        [⟨InstrumentName.BASS, 5, ⟨[], true, false⟩, 0⟩,
         ⟨InstrumentName.BASS, 2, ⟨[], true, false⟩, 0⟩]).sectionStartTimes j
        = some tj →
      (runSf DEFAULT_CONFIG (soundfontPrepare DEFAULT_CONFIG 0)
        [⟨InstrumentName.BASS, 5, ⟨[], true, false⟩, 0⟩,
         ⟨InstrumentName.BASS, 2, ⟨[], true, false⟩, 0⟩]).sectionStartTimes k
        = some tk →
      tj < tk) :=
  ⟨by norm_num [DEFAULT_CONFIG],
    soundfont_section_start_times_monotonic DEFAULT_CONFIG 0
      [⟨InstrumentName.BASS, 5, ⟨[], true, false⟩, 0⟩,
       ⟨InstrumentName.BASS, 2, ⟨[], true, false⟩, 0⟩]
      (by norm_num [DEFAULT_CONFIG])⟩

/-! ### Context buffer (C9) -/

/-- C9 (counterexample): the claim says the per-instrument `trimmed` flag,
once set by an overflow, stays true until a reset.  Here a capacity-1
buffer overflows (flag `true`), and a following `incorporate` of an empty
generation — no reset anywhere, `maxSteps` still 1 — writes the flag back
to `false`, because `incorporate` stores this call's overflow test instead
of or-ing it in. -/
theorem context_trimmed_sticky_counterexample :
    (incorporate (initContext 1) twoStepTrackerText).trimmed
        InstrumentName.BASS = true ∧
    (incorporate (incorporate (initContext 1) twoStepTrackerText)
        []).trimmed InstrumentName.BASS = false ∧
    (incorporate (initContext 1) twoStepTrackerText).maxSteps ≠ 0 := by
  refine ⟨by decide, by decide, by decide⟩

/-- C9 (amended): after an `incorporate` call on a context with non-zero
capacity, the per-instrument `trimmed` flag records whether THIS call's
combined list (previous history plus this generation's stripped additions)
exceeded the capacity — not whether the buffer ever overflowed. -/
theorem context_trimmed_reflects_last_incorporate (ctx : TrackerContext)
    (text : Str) (h : ctx.maxSteps ≠ 0) (inst : InstrumentName) :
    (incorporate ctx text).trimmed inst
      = decide ((ctx.history inst).length
          + ((extractInstrumentSections text inst).map stripLineNumber).length
          > ctx.maxSteps) := by
  unfold incorporate
  rw [if_neg h]
  show decide ((ctx.history inst
      ++ (extractInstrumentSections text inst).map stripLineNumber).length
      > ctx.maxSteps) = _
  rw [List.length_append]

theorem context_trimmed_reflects_last_incorporate_witness :
    (initContext 1).maxSteps ≠ 0 ∧
    (incorporate (initContext 1) twoStepTrackerText).trimmed
        InstrumentName.BASS
      = decide (((initContext 1).history InstrumentName.BASS).length
          + ((extractInstrumentSections twoStepTrackerText
              InstrumentName.BASS).map stripLineNumber).length
          > (initContext 1).maxSteps) :=
  ⟨by decide,
    context_trimmed_reflects_last_incorporate (initContext 1)
      twoStepTrackerText (by decide) InstrumentName.BASS⟩

end InfiniteJazz
